import Mathlib

/-!
# Record cache of the GB28181 plugin (`bus.go`)

A shallow embedding of `recordCache`: the two Go maps, `doPut`, `Put`,
`SubscribeOnce`, `notify`, one pass of the `watchTimeout` loop and `recordKey`,
followed by the properties proved about them.

Conventions of the embedding.

* Instants and durations are integers counting nanoseconds.
* A callback `func(records)` is a function value the cache only stores and
  calls: it is represented by an identifier, and calling it is recorded as an `Invocation` in the list of
  invocations an operation returns.  A callback does not call back into the
  cache.
* A Go map is a list of key/value pairs read through `mapGet`; the order in
  which `range` visits the keys is not fixed by Go, so every pass of the sweep
  takes the order as a parameter (`rangeOrder`).
* Every operation is executed as one atomic step, during which the clock
  reading does not change.
* For the lock discipline each operation also has the list of its accesses to
  the lock and to the maps, in program order (`PutAccesses` and the like).
-/

namespace Gb28181

/-! ## Data model -/

/-- A `*Record` pointer.  The cache stores and counts payloads, it never looks inside. -/
abbrev Record := Nat

/-- An instant (`time.Time`), in nanoseconds on one clock. -/
abbrev Time := Int

/-- A `time.Duration`: a signed 64-bit count of nanoseconds. -/
abbrev Duration := Int

/-- The largest `time.Duration`. -/
def maxDuration : Duration := 2 ^ 63 - 1

/-- The smallest `time.Duration`. -/
def minDuration : Duration := -(2 ^ 63)

/-- The value of `time.Since(t)` when the clock reads `now`: the difference
`now - t`, saturated to the range of `time.Duration` as `Time.Sub` does. -/
def since (now t : Time) : Duration :=
  if now - t > maxDuration then maxDuration
  else if now - t < minDuration then minDuration
  else now - t

/-- `time.Second`. -/
def second : Duration := 1000000000

/-- The Go struct `records`. -/
structure records where
  time : Time
  sum : Int
  finished : Bool
  list : List Record
deriving DecidableEq, Repr

/-- The Go struct `subscriber`; `callback` identifies the function value. -/
structure subscriber where
  callback : Nat
  timeout : Duration
  startTime : Time
deriving DecidableEq, Repr

/-- One call `s.callback(r)` made by `notify key r`. -/
structure Invocation where
  key : String
  callback : Nat
  arg : records
deriving DecidableEq, Repr

/-! ## Go maps with string keys -/

/-- The lookup `v, ok := m[k]`. -/
def mapGet {V : Type} : List (String × V) → String → Option V
  | [], _ => none
  | e :: m, k => if e.1 = k then some e.2 else mapGet m k

/-- The statement `delete(m, k)`. -/
def mapDelete {V : Type} (m : List (String × V)) (k : String) : List (String × V) :=
  m.filter (fun e => decide (e.1 ≠ k))

/-- The assignment `m[k] = v`. -/
def mapSet {V : Type} (m : List (String × V)) (k : String) (v : V) : List (String × V) :=
  (k, v) :: mapDelete m k

/-- The keys a `range` over `m` visits, each once.  The keys named by `ord` come
first, in that order, then the remaining ones: every order of visit is
`rangeOrder m ord` for some `ord`. -/
def rangeOrder {V : Type} (m : List (String × V)) (ord : List String) : List String :=
  (ord.dedup.filter (fun k => (mapGet m k).isSome)) ++
    ((m.map Prod.fst).dedup.filter (fun k => decide (k ∉ ord)))

/-! ## The cache and its operations -/

/-- The Go struct `recordCache` (the lock is not represented). -/
structure recordCache where
  expire : Duration
  cache : List (String × records)
  subscribers : List (String × subscriber)
deriving DecidableEq, Repr

/-- `NewRecordCache`: empty maps and a retention of sixty seconds. -/
def NewRecordCache : recordCache :=
  { expire := second * 60, cache := [], subscribers := [] }

/-- `fmt.Sprintf("%s-%s-%d", deviceId, channelId, sn)`. -/
def recordKey (deviceId channelId : String) (sn : Int) : String :=
  deviceId ++ "-" ++ channelId ++ "-" ++ toString sn

/-- `recordCache.notify`: call the waiter of `key`, if there is one, with `r`,
then delete `key` from both maps. -/
def notify (c : recordCache) (key : String) (r : records) : recordCache × List Invocation :=
  let calls : List Invocation :=
    match mapGet c.subscribers key with
    | some s => [{ key := key, callback := s.callback, arg := r }]
    | none => []
  ({ c with subscribers := mapDelete c.subscribers key, cache := mapDelete c.cache key }, calls)

/-- `recordCache.doPut` at clock reading `now`: returns the new cache, the key
and the record stored under it. -/
def doPut (now : Time) (c : recordCache) (deviceId channelId : String) (sn sum : Int)
    (record : List Record) : recordCache × String × records :=
  let key := recordKey deviceId channelId sn
  let r0 : records :=
    match mapGet c.cache key with
    | some v => v
    | none => { time := now, sum := sum, finished := false, list := [] }
  let r1 : records := { r0 with list := r0.list ++ record }
  let r : records := if (r1.list.length : Int) = sum then { r1 with finished := true } else r1
  ({ c with cache := mapSet c.cache key r }, key, r)

/-- `recordCache.Put` at clock reading `now`. -/
def Put (now : Time) (c : recordCache) (deviceId channelId : String) (sn sum : Int)
    (record : List Record) : recordCache × List Invocation :=
  let res := doPut now c deviceId channelId sn sum record
  if res.2.2.finished then notify res.1 res.2.1 res.2.2 else (res.1, [])

/-- `recordCache.SubscribeOnce`. -/
def SubscribeOnce (c : recordCache) (deviceId channelId : String) (sn : Int)
    (sub : subscriber) : recordCache :=
  { c with subscribers := mapSet c.subscribers (recordKey deviceId channelId sn) sub }

/-- The body of the first loop of `watchTimeout` at key `k`: a key deleted
before the loop reaches it is not visited. -/
def sweepSubscriber (now : Time) (acc : recordCache × List Invocation) (k : String) :
    recordCache × List Invocation :=
  match mapGet acc.1.subscribers k with
  | none => acc
  | some s =>
    if since now s.startTime > s.timeout then
      match mapGet acc.1.cache k with
      | some r => ((notify acc.1 k r).1, acc.2 ++ (notify acc.1 k r).2)
      | none => acc
    else acc

/-- The body of the second loop of `watchTimeout` at key `k`. -/
def sweepRecord (now : Time) (c : recordCache) (k : String) : recordCache :=
  match mapGet c.cache k with
  | none => c
  | some r =>
    if since now r.time > c.expire then { c with cache := mapDelete c.cache k } else c

/-- One iteration of the loop of `watchTimeout`, run when the clock reads `now`;
`ord1` and `ord2` fix the order of the two `range` loops. -/
def watchTimeoutTick (now : Time) (ord1 ord2 : List String) (c : recordCache) :
    recordCache × List Invocation :=
  let p1 := (rangeOrder c.subscribers ord1).foldl (sweepSubscriber now) (c, [])
  let c2 := (rangeOrder p1.1.cache ord2).foldl (sweepRecord now) p1.1
  (c2, p1.2)

/-! ## Sequences of operations -/

/-- An operation on the cache. -/
inductive Op where
  | put (deviceId channelId : String) (sn sum : Int) (record : List Record)
  | subscribeOnce (deviceId channelId : String) (sn : Int) (sub : subscriber)
  | tick (ord1 ord2 : List String)
deriving DecidableEq, Repr

/-- Execute one operation when the clock reads `now`. -/
def step (c : recordCache) (now : Time) : Op → recordCache × List Invocation
  | Op.put d ch sn sum record => Put now c d ch sn sum record
  | Op.subscribeOnce d ch sn sub => (SubscribeOnce c d ch sn sub, [])
  | Op.tick ord1 ord2 => watchTimeoutTick now ord1 ord2 c

/-- Execute timed operations in order, collecting the invocations made. -/
def run (c : recordCache) : List (Time × Op) → recordCache × List Invocation
  | [] => (c, [])
  | (now, op) :: ops =>
    let r1 := step c now op
    let r2 := run r1.1 ops
    (r2.1, r1.2 ++ r2.2)

/-- The invocations made on behalf of key `k`. -/
def callsFor (k : String) (calls : List Invocation) : List Invocation :=
  calls.filter (fun i => decide (i.key = k))

/-- How many times callback `cb` was called. -/
def callCount (cb : Nat) (calls : List Invocation) : Nat :=
  (calls.filter (fun i => decide (i.callback = cb))).length

/-- The operations `Put(d, ch, sn, sum, fs)` for each `(now, sum, fs)` of `ps`. -/
def putOps (d ch : String) (sn : Int) (ps : List (Time × Int × List Record)) :
    List (Time × Op) :=
  ps.map (fun p => (p.1, Op.put d ch sn p.2.1 p.2.2))

/-- The record `doPut` returns in each call of a sequence of `Put` calls on one key. -/
def putResults (c : recordCache) (d ch : String) (sn : Int) :
    List (Time × Int × List Record) → List records
  | [] => []
  | p :: ps =>
    (doPut p.1 c d ch sn p.2.1 p.2.2).2.2 ::
      putResults (Put p.1 c d ch sn p.2.1 p.2.2).1 d ch sn ps

/-- No call of `ps` brings the running count, which starts at `acc`, to the
expected total that call supplies. -/
def noEarlyCompletion (acc : Nat) : List (Time × Int × List Record) → Bool
  | [] => true
  | p :: ps =>
    decide (((acc + p.2.2.length : Nat) : Int) ≠ p.2.1) &&
      noEarlyCompletion (acc + p.2.2.length) ps

/-- The list accumulated so far under key `k` (empty when there is no record). -/
def curList (c : recordCache) (k : String) : List Record :=
  match mapGet c.cache k with
  | some r => r.list
  | none => []

/-- No record stored under key `k` is marked finished. -/
def pendingAt (c : recordCache) (k : String) : Prop :=
  ∀ r, mapGet c.cache k = some r → r.finished = false

/-- The calls `(now, fs)` of `ps`, each supplying the same expected total `N`. -/
def samePuts (N : Int) (ps : List (Time × List Record)) : List (Time × Int × List Record) :=
  ps.map (fun p => (p.1, N, p.2))

/-- The operations before the last `Put` of a delivery: the `Put` calls `pre`,
then `SubscribeOnce` at `tsub`, then the `Put` calls `post`, all on one key and
all with expected total `N`. -/
def deliveryLead (d ch : String) (sn N : Int) (sub : subscriber) (tsub : Time)
    (pre post : List (Time × List Record)) : List (Time × Op) :=
  putOps d ch sn (samePuts N pre) ++ [(tsub, Op.subscribeOnce d ch sn sub)] ++
    putOps d ch sn (samePuts N post)

/-- The invocation the first loop of `watchTimeout` makes for key `k`, if any:
`k` has a waiter whose timeout has passed and a record to hand to it. -/
def timedOut (now : Time) (c : recordCache) (k : String) : Option Invocation :=
  match mapGet c.subscribers k with
  | none => none
  | some s =>
    if since now s.startTime > s.timeout then
      match mapGet c.cache k with
      | some r => some { key := k, callback := s.callback, arg := r }
      | none => none
    else none

/-- The second loop of `watchTimeout` deletes the record of key `k`: there is
one and it is older than the retention. -/
def expired (now : Time) (c : recordCache) (k : String) : Bool :=
  match mapGet c.cache k with
  | some r => decide (since now r.time > c.expire)
  | none => false

/-- How many entries of the subscribers map hold callback `cb`. -/
def holders (cb : Nat) (m : List (String × subscriber)) : Nat :=
  (m.filter (fun e => decide (e.2.callback = cb))).length

/-- How many `SubscribeOnce` calls of `ops` register callback `cb`. -/
def regCount (cb : Nat) : List (Time × Op) → Nat
  | [] => 0
  | (_, Op.subscribeOnce _ _ _ sub) :: ops =>
    (if sub.callback = cb then 1 else 0) + regCount cb ops
  | _ :: ops => regCount cb ops

/-- The operation is a `SubscribeOnce`. -/
def isSubscribe : Op → Bool
  | Op.subscribeOnce _ _ _ _ => true
  | _ => false

/-- The operation registers callback `cb` under a key other than `k`. -/
def registersElsewhere (k : String) (cb : Nat) : Op → Bool
  | Op.subscribeOnce d ch sn sub => decide (recordKey d ch sn ≠ k ∧ sub.callback = cb)
  | _ => false

/-- No record in the cache map is marked finished. -/
def allPending (c : recordCache) : Prop :=
  ∀ e ∈ c.cache, e.2.finished = false

/-- An operation that can leave an overshooting record of key `k` in place: a
`Put` for `k` that supplies the expected total `N`, a `Put` for another key, or
a `SubscribeOnce`; not a sweep. -/
def keepsOvershoot (k : String) (N : Int) : Op → Bool
  | Op.put d ch sn sum _ => decide (recordKey d ch sn ≠ k ∨ sum = N)
  | Op.subscribeOnce _ _ _ _ => true
  | Op.tick _ _ => false

/-! ## Lock and map accesses, in program order -/

/-- What a statement of the component does to the lock or to one of the two
maps; `call` is the call `s.callback(r)`. -/
inductive Access where
  | lock
  | unlock
  | readCache
  | writeCache
  | readSubscribers
  | writeSubscribers
  | call
deriving DecidableEq, Repr

/-- The accesses of `doPut`: `c.Lock()`, the lookup `c.cache[key]`, the
assignment `c.cache[key] = r`, and the deferred `c.Unlock()` on return. -/
def doPutAccesses : List Access :=
  [Access.lock, Access.readCache, Access.writeCache, Access.unlock]

/-- The accesses of `SubscribeOnce`: `c.Lock()`, `c.subscribers[key] = sub`, and
the deferred `c.Unlock()`. -/
def SubscribeOnceAccesses : List Access :=
  [Access.lock, Access.writeSubscribers, Access.unlock]

/-- The accesses of `notify`: the lookup `c.subscribers[key]`, the call of the
callback when a waiter was found, then `c.Lock()`, the two `delete`s and the
deferred `c.Unlock()`. -/
def notifyAccesses (c : recordCache) (key : String) : List Access :=
  Access.readSubscribers ::
    ((match mapGet c.subscribers key with
      | some _ => [Access.call]
      | none => []) ++
     [Access.lock, Access.writeSubscribers, Access.writeCache, Access.unlock])

/-- The accesses of `Put`: those of `doPut`, then those of `notify` when the
record came back finished. -/
def PutAccesses (now : Time) (c : recordCache) (deviceId channelId : String) (sn sum : Int)
    (record : List Record) : List Access :=
  let res := doPut now c deviceId channelId sn sum record
  doPutAccesses ++ (if res.2.2.finished then notifyAccesses res.1 res.2.1 else [])

/-- The accesses of the body of the first loop of `watchTimeout` at key `k`: the
`range` over `c.subscribers` yields the entry, and for a timed-out waiter the
lookup `c.cache[k]` follows, then `notify` when a record was found. -/
def sweepSubscriberAccesses (now : Time) (c : recordCache) (k : String) : List Access :=
  match mapGet c.subscribers k with
  | none => []
  | some s =>
    Access.readSubscribers ::
      (if since now s.startTime > s.timeout then
        Access.readCache ::
          (match mapGet c.cache k with
           | some _ => notifyAccesses c k
           | none => [])
       else [])

/-- The accesses of the body of the second loop of `watchTimeout` at key `k`:
the `range` over `c.cache` yields the entry, and `delete(c.cache, k)` follows
for an expired record. -/
def sweepRecordAccesses (now : Time) (c : recordCache) (k : String) : List Access :=
  match mapGet c.cache k with
  | none => []
  | some r =>
    Access.readCache ::
      (if since now r.time > c.expire then [Access.writeCache] else [])

/-- The accesses of one iteration of the loop of `watchTimeout`. -/
def watchTimeoutTickAccesses (now : Time) (ord1 ord2 : List String) (c : recordCache) :
    List Access :=
  let p1 := (rangeOrder c.subscribers ord1).foldl
    (fun (acc : (recordCache × List Invocation) × List Access) k =>
      (sweepSubscriber now acc.1 k, acc.2 ++ sweepSubscriberAccesses now acc.1.1 k))
    ((c, []), [])
  let p2 := (rangeOrder p1.1.1.cache ord2).foldl
    (fun (acc : recordCache × List Access) k =>
      (sweepRecord now acc.1 k, acc.2 ++ sweepRecordAccesses now acc.1 k))
    (p1.1.1, [])
  p1.2 ++ p2.2

/-- Every read and write of a map in `as` happens while the lock is held;
`held` tells whether it is held at the start. -/
def underLock : Bool → List Access → Bool
  | _, [] => true
  | _, Access.lock :: as => underLock true as
  | _, Access.unlock :: as => underLock false as
  | held, Access.call :: as => underLock held as
  | held, _ :: as => held && underLock held as

/-! ## Lookups after a map update -/

theorem mapGet_mapDelete {V : Type} (m : List (String × V)) (k k' : String) :
    mapGet (mapDelete m k) k' = if k' = k then none else mapGet m k' := by
  induction m with
  | nil => simp [mapDelete, mapGet]
  | cons e m ih =>
    unfold mapDelete at ih ⊢
    by_cases h : e.1 = k
    · simp only [List.filter_cons, h, ne_eq, not_true_eq_false, decide_False,
        Bool.false_eq_true, if_false, ih, mapGet]
      by_cases h2 : k' = k
      · simp [h2]
      · have : ¬ k = k' := fun a => h2 a.symm
        simp [h2, this]
    · simp only [List.filter_cons, ne_eq, h, not_false_eq_true, decide_True, if_true, mapGet, ih]
      by_cases h2 : k' = k
      · subst h2
        simp [h]
      · simp [h2]

theorem mapGet_mapDelete_self {V : Type} (m : List (String × V)) (k : String) :
    mapGet (mapDelete m k) k = none := by
  simp [mapGet_mapDelete]

theorem mapGet_mapDelete_ne {V : Type} (m : List (String × V)) {k k' : String} (h : k' ≠ k) :
    mapGet (mapDelete m k) k' = mapGet m k' := by
  simp [mapGet_mapDelete, h]

theorem mapGet_mapSet {V : Type} (m : List (String × V)) (k k' : String) (v : V) :
    mapGet (mapSet m k v) k' = if k' = k then some v else mapGet m k' := by
  unfold mapSet
  by_cases h : k' = k
  · simp [mapGet, h]
  · have : ¬ k = k' := fun a => h a.symm
    simp [mapGet, h, this, mapGet_mapDelete]

theorem mapGet_mapSet_self {V : Type} (m : List (String × V)) (k : String) (v : V) :
    mapGet (mapSet m k v) k = some v := by
  simp [mapGet_mapSet]

theorem mapGet_mapSet_ne {V : Type} (m : List (String × V)) {k k' : String} (v : V)
    (h : k' ≠ k) : mapGet (mapSet m k v) k' = mapGet m k' := by
  simp [mapGet_mapSet, h]

theorem mapGet_isSome_iff {V : Type} (m : List (String × V)) (k : String) :
    (mapGet m k).isSome = true ↔ k ∈ m.map Prod.fst := by
  induction m with
  | nil => simp [mapGet]
  | cons e m ih =>
    by_cases h : e.1 = k
    · simp [mapGet, h]
    · have : ¬ k = e.1 := fun a => h a.symm
      simp only [mapGet, h, if_false, ih, List.map_cons, List.mem_cons, this, false_or]

/-- A `range` visits exactly the keys present in the map. -/
theorem mem_rangeOrder {V : Type} (m : List (String × V)) (ord : List String) (k : String) :
    k ∈ rangeOrder m ord ↔ (mapGet m k).isSome = true := by
  unfold rangeOrder
  simp only [List.mem_append, List.mem_filter, List.mem_dedup, decide_eq_true_eq]
  rw [← mapGet_isSome_iff]
  by_cases h : k ∈ ord <;> simp [h]

/-- A `range` visits no key twice. -/
theorem nodup_rangeOrder {V : Type} (m : List (String × V)) (ord : List String) :
    (rangeOrder m ord).Nodup := by
  unfold rangeOrder
  refine List.Nodup.append ((List.nodup_dedup _).filter _) ((List.nodup_dedup _).filter _) ?_
  intro k h1 h2
  simp only [List.mem_filter, List.mem_dedup, decide_eq_true_eq] at h1 h2
  exact h2.2 h1.1

/-! ## `doPut`, `Put` and `notify` -/

theorem doPut_of_none (now : Time) (c : recordCache) (d ch : String) (sn sum : Int)
    (fs : List Record) (h : mapGet c.cache (recordKey d ch sn) = none) :
    (doPut now c d ch sn sum fs).2.2 =
      if (fs.length : Int) = sum then { time := now, sum := sum, finished := true, list := fs }
      else { time := now, sum := sum, finished := false, list := fs } := by
  simp only [doPut, h, List.nil_append]

theorem doPut_of_some (now : Time) (c : recordCache) (d ch : String) (sn sum : Int)
    (fs : List Record) (v : records) (h : mapGet c.cache (recordKey d ch sn) = some v) :
    (doPut now c d ch sn sum fs).2.2 =
      if ((v.list ++ fs).length : Int) = sum then { v with finished := true, list := v.list ++ fs }
      else { v with list := v.list ++ fs } := by
  simp only [doPut, h]

theorem doPut_list (now : Time) (c : recordCache) (d ch : String) (sn sum : Int)
    (fs : List Record) :
    (doPut now c d ch sn sum fs).2.2.list = curList c (recordKey d ch sn) ++ fs := by
  unfold curList
  cases hg : mapGet c.cache (recordKey d ch sn) with
  | none => rw [doPut_of_none now c d ch sn sum fs hg]; split <;> simp
  | some v => rw [doPut_of_some now c d ch sn sum fs v hg]; split <;> simp

theorem doPut_finished_of_eq (now : Time) (c : recordCache) (d ch : String) (sn sum : Int)
    (fs : List Record)
    (h : ((curList c (recordKey d ch sn) ++ fs).length : Int) = sum) :
    (doPut now c d ch sn sum fs).2.2.finished = true := by
  unfold curList at h
  cases hg : mapGet c.cache (recordKey d ch sn) with
  | none =>
    rw [hg] at h
    rw [doPut_of_none now c d ch sn sum fs hg, if_pos (by simpa using h)]
  | some v =>
    rw [hg] at h
    rw [doPut_of_some now c d ch sn sum fs v hg, if_pos h]

theorem doPut_finished_of_ne (now : Time) (c : recordCache) (d ch : String) (sn sum : Int)
    (fs : List Record) (hp : pendingAt c (recordKey d ch sn))
    (h : ((curList c (recordKey d ch sn) ++ fs).length : Int) ≠ sum) :
    (doPut now c d ch sn sum fs).2.2.finished = false := by
  unfold curList at h
  cases hg : mapGet c.cache (recordKey d ch sn) with
  | none =>
    rw [hg] at h
    rw [doPut_of_none now c d ch sn sum fs hg, if_neg (by simpa using h)]
  | some v =>
    rw [hg] at h
    rw [doPut_of_some now c d ch sn sum fs v hg, if_neg h]
    exact hp v hg

theorem Put_pending (now : Time) (c : recordCache) (d ch : String) (sn sum : Int)
    (fs : List Record) (hp : pendingAt c (recordKey d ch sn))
    (h : ((curList c (recordKey d ch sn) ++ fs).length : Int) ≠ sum) :
    (Put now c d ch sn sum fs).2 = [] ∧
    (Put now c d ch sn sum fs).1.subscribers = c.subscribers ∧
    (Put now c d ch sn sum fs).1.expire = c.expire ∧
    curList (Put now c d ch sn sum fs).1 (recordKey d ch sn)
      = curList c (recordKey d ch sn) ++ fs ∧
    pendingAt (Put now c d ch sn sum fs).1 (recordKey d ch sn) := by
  have hf := doPut_finished_of_ne now c d ch sn sum fs hp h
  have hl := doPut_list now c d ch sn sum fs
  have hc : (doPut now c d ch sn sum fs).1.cache
      = mapSet c.cache (recordKey d ch sn) (doPut now c d ch sn sum fs).2.2 := rfl
  have hP : Put now c d ch sn sum fs = ((doPut now c d ch sn sum fs).1, []) := by
    unfold Put
    simp [hf]
  rw [hP]
  refine ⟨rfl, rfl, rfl, ?_, ?_⟩
  · unfold curList
    simp only [hc, mapGet_mapSet_self]
    rw [hl]
    rfl
  · intro r hr
    simp only [hc, mapGet_mapSet_self, Option.some.injEq] at hr
    rw [← hr]
    exact hf

theorem Put_complete (now : Time) (c : recordCache) (d ch : String) (sn sum : Int)
    (fs : List Record)
    (h : ((curList c (recordKey d ch sn) ++ fs).length : Int) = sum) :
    (Put now c d ch sn sum fs).2 =
      (match mapGet c.subscribers (recordKey d ch sn) with
       | some s => [{ key := recordKey d ch sn, callback := s.callback,
                      arg := (doPut now c d ch sn sum fs).2.2 }]
       | none => []) ∧
    mapGet (Put now c d ch sn sum fs).1.cache (recordKey d ch sn) = none ∧
    mapGet (Put now c d ch sn sum fs).1.subscribers (recordKey d ch sn) = none := by
  have hf := doPut_finished_of_eq now c d ch sn sum fs h
  have hP : Put now c d ch sn sum fs
      = notify (doPut now c d ch sn sum fs).1 (recordKey d ch sn)
          (doPut now c d ch sn sum fs).2.2 := by
    unfold Put
    simp only [hf, if_true]
    rfl
  rw [hP]
  refine ⟨rfl, ?_, ?_⟩
  · exact mapGet_mapDelete_self _ _
  · exact mapGet_mapDelete_self _ _

theorem run_append (c : recordCache) (a b : List (Time × Op)) :
    run c (a ++ b) = ((run (run c a).1 b).1, (run c a).2 ++ (run (run c a).1 b).2) := by
  induction a generalizing c with
  | nil => simp [run]
  | cons x a ih =>
    obtain ⟨now, op⟩ := x
    show run c ((now, op) :: (a ++ b)) = _
    simp only [run, ih, List.append_assoc]

/-- A run of `Put` calls on one key none of which completes the record: no
callback is called, the waiters are untouched and the fragments pile up. -/
theorem run_putOps_pending (d ch : String) (sn : Int) (ps : List (Time × Int × List Record))
    (c : recordCache) (hp : pendingAt c (recordKey d ch sn))
    (hno : noEarlyCompletion (curList c (recordKey d ch sn)).length ps = true) :
    (run c (putOps d ch sn ps)).2 = [] ∧
    (run c (putOps d ch sn ps)).1.subscribers = c.subscribers ∧
    (run c (putOps d ch sn ps)).1.expire = c.expire ∧
    curList (run c (putOps d ch sn ps)).1 (recordKey d ch sn)
      = curList c (recordKey d ch sn) ++ (ps.map (fun p => p.2.2)).flatten ∧
    pendingAt (run c (putOps d ch sn ps)).1 (recordKey d ch sn) := by
  induction ps generalizing c with
  | nil => simp [putOps, run, hp]
  | cons p ps ih =>
    simp only [noEarlyCompletion, Bool.and_eq_true, decide_eq_true_eq] at hno
    have hne : ((curList c (recordKey d ch sn) ++ p.2.2).length : Int) ≠ p.2.1 := by
      rw [List.length_append]; exact hno.1
    obtain ⟨h1, h2, h3, h4, h5⟩ := Put_pending p.1 c d ch sn p.2.1 p.2.2 hp hne
    have hno2 : noEarlyCompletion
        (curList (Put p.1 c d ch sn p.2.1 p.2.2).1 (recordKey d ch sn)).length ps = true := by
      rw [h4, List.length_append]; exact hno.2
    obtain ⟨i1, i2, i3, i4, i5⟩ := ih (Put p.1 c d ch sn p.2.1 p.2.2).1 h5 hno2
    have hrun : run c (putOps d ch sn (p :: ps))
        = ((run (Put p.1 c d ch sn p.2.1 p.2.2).1 (putOps d ch sn ps)).1,
           (Put p.1 c d ch sn p.2.1 p.2.2).2
             ++ (run (Put p.1 c d ch sn p.2.1 p.2.2).1 (putOps d ch sn ps)).2) := rfl
    rw [hrun]
    refine ⟨?_, ?_, ?_, ?_, i5⟩
    · simp only [h1, i1, List.append_nil]
    · simp only [i2, h2]
    · simp only [i3, h3]
    · simp only [i4, h4, List.map_cons, List.flatten_cons, List.append_assoc]

theorem noEarlyCompletion_samePuts (N : Int) (ps : List (Time × List Record)) (acc : Nat)
    (h : ((acc + (ps.map (fun p => p.2.length)).sum : Nat) : Int) < N) :
    noEarlyCompletion acc (samePuts N ps) = true := by
  induction ps generalizing acc with
  | nil => rfl
  | cons p ps ih =>
    simp only [List.map_cons, List.sum_cons] at h
    have h2 : ((acc + p.2.length + (ps.map (fun p => p.2.length)).sum : Nat) : Int) < N := by
      rw [Nat.add_assoc]; exact h
    have h3 : ((acc + p.2.length : Nat) : Int) ≠ N := by
      push_cast at h ⊢
      omega
    simp only [samePuts, List.map_cons, noEarlyCompletion, Bool.and_eq_true, decide_eq_true_eq]
    exact ⟨h3, ih (acc + p.2.length) h2⟩

theorem flatten_samePuts (N : Int) (ps : List (Time × List Record)) :
    ((samePuts N ps).map (fun p => p.2.2)).flatten = (ps.map (fun p => p.2)).flatten := by
  simp [samePuts, List.map_map, Function.comp_def]

theorem length_flatten_frags (ps : List (Time × List Record)) :
    ((ps.map (fun p => p.2)).flatten).length = (ps.map (fun p => p.2.length)).sum := by
  induction ps with
  | nil => rfl
  | cons p ps ih => simp [ih]

theorem putResults_append (d ch : String) (sn : Int) (a b : List (Time × Int × List Record))
    (c : recordCache) :
    putResults c d ch sn (a ++ b)
      = putResults c d ch sn a ++ putResults (run c (putOps d ch sn a)).1 d ch sn b := by
  induction a generalizing c with
  | nil => rfl
  | cons p a ih =>
    show (doPut p.1 c d ch sn p.2.1 p.2.2).2.2 ::
        putResults (Put p.1 c d ch sn p.2.1 p.2.2).1 d ch sn (a ++ b) = _
    rw [ih]
    rfl

theorem putResults_pending (d ch : String) (sn : Int) (ps : List (Time × Int × List Record))
    (c : recordCache) (hp : pendingAt c (recordKey d ch sn))
    (hno : noEarlyCompletion (curList c (recordKey d ch sn)).length ps = true) :
    ∀ r ∈ putResults c d ch sn ps, r.finished = false := by
  induction ps generalizing c with
  | nil => intro r hr; simp [putResults] at hr
  | cons p ps ih =>
    simp only [noEarlyCompletion, Bool.and_eq_true, decide_eq_true_eq] at hno
    have hne : ((curList c (recordKey d ch sn) ++ p.2.2).length : Int) ≠ p.2.1 := by
      rw [List.length_append]; exact hno.1
    obtain ⟨_, _, _, h4, h5⟩ := Put_pending p.1 c d ch sn p.2.1 p.2.2 hp hne
    have hno2 : noEarlyCompletion
        (curList (Put p.1 c d ch sn p.2.1 p.2.2).1 (recordKey d ch sn)).length ps = true := by
      rw [h4, List.length_append]; exact hno.2
    intro r hr
    simp only [putResults, List.mem_cons] at hr
    rcases hr with hr | hr
    · rw [hr]; exact doPut_finished_of_ne p.1 c d ch sn p.2.1 p.2.2 hp hne
    · exact ih _ h5 hno2 r hr

theorem curList_of_none (c : recordCache) (k : String) (h : mapGet c.cache k = none) :
    curList c k = [] := by
  simp [curList, h]

theorem pendingAt_of_none (c : recordCache) (k : String) (h : mapGet c.cache k = none) :
    pendingAt c k := by
  intro r hr
  rw [h] at hr
  cases hr

theorem run_singleton (c : recordCache) (now : Time) (op : Op) :
    run c [(now, op)] = step c now op := by
  simp [run]

/-- The state reached just before the last `Put` of a delivery. -/
theorem run_deliveryLead (c : recordCache) (d ch : String) (sn N : Int) (sub : subscriber)
    (tsub : Time) (pre post : List (Time × List Record))
    (h0 : mapGet c.cache (recordKey d ch sn) = none)
    (hlt : ((((pre ++ post).map (fun p => p.2.length)).sum : Nat) : Int) < N) :
    (run c (deliveryLead d ch sn N sub tsub pre post)).2 = [] ∧
    mapGet (run c (deliveryLead d ch sn N sub tsub pre post)).1.subscribers (recordKey d ch sn)
      = some sub ∧
    curList (run c (deliveryLead d ch sn N sub tsub pre post)).1 (recordKey d ch sn)
      = ((pre ++ post).map (fun p => p.2)).flatten := by
  simp only [List.map_append, List.sum_append] at hlt
  have hpre : noEarlyCompletion (curList c (recordKey d ch sn)).length (samePuts N pre) = true := by
    rw [curList_of_none c _ h0]
    apply noEarlyCompletion_samePuts
    simp only [List.length_nil]
    omega
  obtain ⟨a1, a2, _, a4, a5⟩ :=
    run_putOps_pending d ch sn (samePuts N pre) c (pendingAt_of_none c _ h0) hpre
  rw [curList_of_none c _ h0, List.nil_append, flatten_samePuts] at a4
  -- the state after `SubscribeOnce`
  have hcache : (SubscribeOnce (run c (putOps d ch sn (samePuts N pre))).1 d ch sn sub).cache
      = (run c (putOps d ch sn (samePuts N pre))).1.cache := rfl
  have b4 : curList (SubscribeOnce (run c (putOps d ch sn (samePuts N pre))).1 d ch sn sub)
      (recordKey d ch sn) = (pre.map (fun p => p.2)).flatten := by
    rw [← a4]; unfold curList; rw [hcache]
  have b5 : pendingAt (SubscribeOnce (run c (putOps d ch sn (samePuts N pre))).1 d ch sn sub)
      (recordKey d ch sn) := by
    intro r hr; rw [hcache] at hr; exact a5 r hr
  have hpost : noEarlyCompletion
      (curList (SubscribeOnce (run c (putOps d ch sn (samePuts N pre))).1 d ch sn sub)
        (recordKey d ch sn)).length (samePuts N post) = true := by
    rw [b4, length_flatten_frags]
    apply noEarlyCompletion_samePuts
    omega
  obtain ⟨e1, e2, _, e4, _⟩ := run_putOps_pending d ch sn (samePuts N post) _ b5 hpost
  rw [b4, flatten_samePuts] at e4
  have hrun : run c (deliveryLead d ch sn N sub tsub pre post)
      = ((run (SubscribeOnce (run c (putOps d ch sn (samePuts N pre))).1 d ch sn sub)
            (putOps d ch sn (samePuts N post))).1,
         (run c (putOps d ch sn (samePuts N pre))).2 ++
           (run (SubscribeOnce (run c (putOps d ch sn (samePuts N pre))).1 d ch sn sub)
            (putOps d ch sn (samePuts N post))).2) := by
    unfold deliveryLead
    rw [run_append, run_append, run_singleton]
    simp [step]
  rw [hrun]
  refine ⟨?_, ?_, ?_⟩
  · simp only [a1, e1, List.append_nil]
  · simp only [e2]
    exact mapGet_mapSet_self _ _ _
  · simp only [e4, List.map_append, List.flatten_append]

/-- C1: starting with no record for the key, `Put` calls with expected total `N`
whose fragment lists have lengths summing to `N`, the last one non-empty, and a
`SubscribeOnce` for the key anywhere before the last `Put` (no sweep in
between): nothing is called before the last `Put`, the last `Put` calls the
callback once with the concatenation of the fragments in call order and
`finished = true`, and afterwards neither map holds the key. -/
theorem delivery_on_completion (c : recordCache) (d ch : String) (sn N : Int) (sub : subscriber)
    (tsub : Time) (pre post : List (Time × List Record)) (last : Time × List Record)
    (h0 : mapGet c.cache (recordKey d ch sn) = none)
    (hlast : last.2 ≠ [])
    (hsum : ((((pre ++ post ++ [last]).map (fun p => p.2.length)).sum : Nat) : Int) = N) :
    ∃ r : records,
      r.list = ((pre ++ post ++ [last]).map (fun p => p.2)).flatten ∧
      r.finished = true ∧
      (run c (deliveryLead d ch sn N sub tsub pre post)).2 = [] ∧
      (Put last.1 (run c (deliveryLead d ch sn N sub tsub pre post)).1 d ch sn N last.2).2
        = [{ key := recordKey d ch sn, callback := sub.callback, arg := r }] ∧
      (run c (deliveryLead d ch sn N sub tsub pre post ++
          [(last.1, Op.put d ch sn N last.2)])).2
        = [{ key := recordKey d ch sn, callback := sub.callback, arg := r }] ∧
      mapGet (run c (deliveryLead d ch sn N sub tsub pre post ++
          [(last.1, Op.put d ch sn N last.2)])).1.cache (recordKey d ch sn) = none ∧
      mapGet (run c (deliveryLead d ch sn N sub tsub pre post ++
          [(last.1, Op.put d ch sn N last.2)])).1.subscribers (recordKey d ch sn) = none := by
  have hpos : 0 < last.2.length := List.length_pos.mpr hlast
  have hlt : ((((pre ++ post).map (fun p => p.2.length)).sum : Nat) : Int) < N := by
    simp only [List.map_append, List.sum_append, List.map_cons, List.map_nil, List.sum_cons,
      List.sum_nil] at hsum ⊢
    omega
  obtain ⟨p1, p2, p3⟩ := run_deliveryLead c d ch sn N sub tsub pre post h0 hlt
  have hlen : ((curList (run c (deliveryLead d ch sn N sub tsub pre post)).1
      (recordKey d ch sn) ++ last.2).length : Int) = N := by
    rw [p3, List.length_append, length_flatten_frags]
    simp only [List.map_append, List.sum_append, List.map_cons, List.map_nil, List.sum_cons,
      List.sum_nil] at hsum ⊢
    omega
  obtain ⟨q1, q2, q3⟩ :=
    Put_complete last.1 (run c (deliveryLead d ch sn N sub tsub pre post)).1 d ch sn N last.2 hlen
  rw [p2] at q1
  refine ⟨(doPut last.1 (run c (deliveryLead d ch sn N sub tsub pre post)).1
      d ch sn N last.2).2.2, ?_, ?_, p1, q1, ?_, ?_, ?_⟩
  · rw [doPut_list, p3]
    simp only [List.map_append, List.flatten_append, List.map_cons, List.map_nil,
      List.flatten_cons, List.flatten_nil, List.append_nil]
  · exact doPut_finished_of_eq _ _ _ _ _ _ _ hlen
  · rw [run_append, run_singleton]
    simp only [step, p1, List.nil_append]
    exact q1
  · rw [run_append, run_singleton]
    exact q2
  · rw [run_append, run_singleton]
    exact q3

/-- Witness for C1: fragments `[1]`, `[2]`, `[3]`, `N = 3`, subscription after the second `Put`. -/
theorem delivery_on_completion_witness :
    ∃ r : records,
      r.list = ((([(0, [1]), (1, [2])] : List (Time × List Record)) ++ [] ++ [(3, [3])]).map
        (fun p : Time × List Record => p.2)).flatten ∧
      r.finished = true ∧
      (run NewRecordCache
        (deliveryLead "dev1" "ch1" 100 3 ⟨7, 5 * second, 2⟩ 2 [(0, [1]), (1, [2])] [])).2 = [] ∧
      (Put ((3, [3]) : Time × List Record).1 (run NewRecordCache
        (deliveryLead "dev1" "ch1" 100 3 ⟨7, 5 * second, 2⟩ 2 [(0, [1]), (1, [2])] [])).1
          "dev1" "ch1" 100 3 ((3, [3]) : Time × List Record).2).2
        = [{ key := recordKey "dev1" "ch1" 100,
             callback := (⟨7, 5 * second, 2⟩ : subscriber).callback, arg := r }] ∧
      (run NewRecordCache
        (deliveryLead "dev1" "ch1" 100 3 ⟨7, 5 * second, 2⟩ 2 [(0, [1]), (1, [2])] [] ++
          [(((3, [3]) : Time × List Record).1, Op.put "dev1" "ch1" 100 3 ((3, [3]) : Time × List Record).2)])).2
        = [{ key := recordKey "dev1" "ch1" 100,
             callback := (⟨7, 5 * second, 2⟩ : subscriber).callback, arg := r }] ∧
      mapGet (run NewRecordCache
        (deliveryLead "dev1" "ch1" 100 3 ⟨7, 5 * second, 2⟩ 2 [(0, [1]), (1, [2])] [] ++
          [(((3, [3]) : Time × List Record).1, Op.put "dev1" "ch1" 100 3 ((3, [3]) : Time × List Record).2)])).1.cache
          (recordKey "dev1" "ch1" 100) = none ∧
      mapGet (run NewRecordCache
        (deliveryLead "dev1" "ch1" 100 3 ⟨7, 5 * second, 2⟩ 2 [(0, [1]), (1, [2])] [] ++
          [(((3, [3]) : Time × List Record).1, Op.put "dev1" "ch1" 100 3 ((3, [3]) : Time × List Record).2)])).1.subscribers
          (recordKey "dev1" "ch1" 100) = none :=
  delivery_on_completion NewRecordCache "dev1" "ch1" 100 3 ⟨7, 5 * second, 2⟩ 2
    [(0, [1]), (1, [2])] [] (3, [3]) (by decide) (by decide) (by decide)

/-! ## One pass of the sweep -/

theorem callsFor_append (k : String) (a b : List Invocation) :
    callsFor k (a ++ b) = callsFor k a ++ callsFor k b := by
  simp [callsFor]

theorem timedOut_key (now : Time) (c : recordCache) (k : String) (i : Invocation)
    (h : timedOut now c k = some i) : i.key = k := by
  unfold timedOut at h
  split at h
  · cases h
  · split at h
    · split at h
      · cases h; rfl
      · cases h
    · cases h

theorem timedOut_congr (now : Time) (c c' : recordCache) (k : String)
    (hs : mapGet c'.subscribers k = mapGet c.subscribers k)
    (hc : mapGet c'.cache k = mapGet c.cache k) :
    timedOut now c' k = timedOut now c k := by
  unfold timedOut
  rw [hs, hc]

theorem timedOut_of_no_waiter (now : Time) (c : recordCache) (k : String)
    (h : mapGet c.subscribers k = none) : timedOut now c k = none := by
  unfold timedOut
  rw [h]

theorem sweepSubscriber_eq (now : Time) (acc : recordCache × List Invocation) (k : String) :
    sweepSubscriber now acc k =
      match timedOut now acc.1 k with
      | none => acc
      | some i => ((notify acc.1 k i.arg).1, acc.2 ++ [i]) := by
  unfold sweepSubscriber timedOut
  cases hs : mapGet acc.1.subscribers k with
  | none => rfl
  | some s =>
    simp only []
    by_cases ht : since now s.startTime > s.timeout
    · simp only [ht, if_true]
      cases hc : mapGet acc.1.cache k with
      | none => rfl
      | some r => simp only [notify, hs]
    · simp only [ht, if_false]

/-- The effect of visiting key `k'` in the first loop, seen from key `k`. -/
theorem sweepSubscriber_key (now : Time) (acc : recordCache × List Invocation) (k' k : String) :
    (sweepSubscriber now acc k').1.expire = acc.1.expire ∧
    callsFor k (sweepSubscriber now acc k').2
      = callsFor k acc.2 ++ (if k = k' then timedOut now acc.1 k else none).toList ∧
    mapGet (sweepSubscriber now acc k').1.subscribers k
      = (if (if k = k' then timedOut now acc.1 k else none).isSome then none
         else mapGet acc.1.subscribers k) ∧
    mapGet (sweepSubscriber now acc k').1.cache k
      = (if (if k = k' then timedOut now acc.1 k else none).isSome then none
         else mapGet acc.1.cache k) := by
  rw [sweepSubscriber_eq]
  by_cases hk : k = k'
  · subst hk
    cases ht : timedOut now acc.1 k with
    | none => simp
    | some i =>
      have hik := timedOut_key now acc.1 k i ht
      simp only [if_true, Option.isSome_some, Option.toList_some, callsFor_append, notify,
        mapGet_mapDelete_self]
      refine ⟨trivial, ?_, trivial, trivial⟩
      simp [callsFor, hik]
  · cases ht : timedOut now acc.1 k' with
    | none => simp [hk]
    | some i =>
      have hik := timedOut_key now acc.1 k' i ht
      have hne : ¬ i.key = k := by rw [hik]; exact fun a => hk a.symm
      simp only [hk, if_false, Option.isSome_none, Option.toList_none, callsFor_append, notify,
        mapGet_mapDelete_ne _ hk, List.append_nil, Bool.false_eq_true]
      refine ⟨trivial, ?_, trivial, trivial⟩
      simp [callsFor, hne]

/-- The effect of the first loop over the keys `ks`, seen from key `k`. -/
theorem foldl_sweepSubscriber_key (now : Time) (ks : List String)
    (acc : recordCache × List Invocation) (k : String) :
    (ks.foldl (sweepSubscriber now) acc).1.expire = acc.1.expire ∧
    callsFor k (ks.foldl (sweepSubscriber now) acc).2
      = callsFor k acc.2 ++ (if k ∈ ks then timedOut now acc.1 k else none).toList ∧
    mapGet (ks.foldl (sweepSubscriber now) acc).1.subscribers k
      = (if (if k ∈ ks then timedOut now acc.1 k else none).isSome then none
         else mapGet acc.1.subscribers k) ∧
    mapGet (ks.foldl (sweepSubscriber now) acc).1.cache k
      = (if (if k ∈ ks then timedOut now acc.1 k else none).isSome then none
         else mapGet acc.1.cache k) := by
  induction ks generalizing acc with
  | nil => simp
  | cons k' ks ih =>
    obtain ⟨s1, s2, s3, s4⟩ := sweepSubscriber_key now acc k' k
    obtain ⟨i1, i2, i3, i4⟩ := ih (sweepSubscriber now acc k')
    simp only [List.foldl_cons]
    rw [i1, i2, i3, i4, s1, s2, s3, s4]
    by_cases hk : k = k'
    · subst hk
      have hnone : timedOut now (sweepSubscriber now acc k).1 k = none := by
        cases ht : timedOut now acc.1 k with
        | none =>
          rw [timedOut_congr now acc.1 _ k (by rw [s3]; simp [ht]) (by rw [s4]; simp [ht])]
          exact ht
        | some i =>
          apply timedOut_of_no_waiter
          rw [s3]; simp [ht]
      simp only [hnone, ite_self, Option.toList_none, List.append_nil, Option.isSome_none,
        Bool.false_eq_true, if_false, if_true, List.mem_cons, true_or]
      exact ⟨trivial, trivial, trivial, trivial⟩
    · have hsame : timedOut now (sweepSubscriber now acc k').1 k = timedOut now acc.1 k :=
        timedOut_congr now acc.1 _ k (by rw [s3]; simp [hk]) (by rw [s4]; simp [hk])
      simp only [hsame, hk, if_false, Option.toList_none, List.append_nil, Option.isSome_none,
        Bool.false_eq_true, List.mem_cons, false_or]
      exact ⟨trivial, trivial, trivial, trivial⟩

theorem sweepRecord_eq (now : Time) (c : recordCache) (k : String) :
    sweepRecord now c k
      = if expired now c k = true then { c with cache := mapDelete c.cache k } else c := by
  unfold sweepRecord expired
  cases mapGet c.cache k with
  | none => simp
  | some r => simp

theorem expired_congr (now : Time) (c c' : recordCache) (k : String)
    (he : c'.expire = c.expire) (hc : mapGet c'.cache k = mapGet c.cache k) :
    expired now c' k = expired now c k := by
  unfold expired
  rw [he, hc]

/-- The effect of visiting key `k'` in the second loop, seen from key `k`. -/
theorem sweepRecord_key (now : Time) (c : recordCache) (k' k : String) :
    (sweepRecord now c k').expire = c.expire ∧
    (sweepRecord now c k').subscribers = c.subscribers ∧
    mapGet (sweepRecord now c k').cache k
      = (if k = k' ∧ expired now c k = true then none else mapGet c.cache k) := by
  rw [sweepRecord_eq]
  by_cases he : expired now c k' = true
  · simp only [he, if_true, mapGet_mapDelete]
    refine ⟨trivial, trivial, ?_⟩
    by_cases hk : k = k'
    · subst hk; simp [he]
    · simp [hk]
  · simp only [he, if_false, Bool.false_eq_true]
    refine ⟨trivial, trivial, ?_⟩
    by_cases hk : k = k'
    · subst hk; simp [he]
    · simp [hk]

/-- The effect of the second loop over the keys `ks`, seen from key `k`. -/
theorem foldl_sweepRecord_key (now : Time) (ks : List String) (c : recordCache) (k : String) :
    (ks.foldl (sweepRecord now) c).expire = c.expire ∧
    (ks.foldl (sweepRecord now) c).subscribers = c.subscribers ∧
    mapGet (ks.foldl (sweepRecord now) c).cache k
      = (if k ∈ ks ∧ expired now c k = true then none else mapGet c.cache k) := by
  induction ks generalizing c with
  | nil => simp
  | cons k' ks ih =>
    obtain ⟨s1, s2, s3⟩ := sweepRecord_key now c k' k
    obtain ⟨i1, i2, i3⟩ := ih (sweepRecord now c k')
    simp only [List.foldl_cons]
    rw [i1, i2, i3, s1, s2, s3]
    refine ⟨rfl, rfl, ?_⟩
    by_cases hk : k = k'
    · subst hk
      by_cases he : expired now c k = true
      · simp [he]
      · have he2 : expired now (sweepRecord now c k) k = expired now c k :=
          expired_congr now c _ k s1 (by rw [s3]; simp [he])
        simp [he2, he]
    · have he2 : expired now (sweepRecord now c k') k = expired now c k :=
        expired_congr now c _ k s1 (by rw [s3]; simp [hk])
      simp [he2, hk]

theorem timedOut_isSome_mem (now : Time) (c : recordCache) (k : String) (ord : List String)
    (h : (timedOut now c k).isSome = true) : k ∈ rangeOrder c.subscribers ord := by
  rw [mem_rangeOrder]
  unfold timedOut at h
  cases hs : mapGet c.subscribers k with
  | none => rw [hs] at h; simp at h
  | some s => rfl

theorem expired_mem (now : Time) (c : recordCache) (k : String) (ord : List String)
    (h : expired now c k = true) : k ∈ rangeOrder c.cache ord := by
  rw [mem_rangeOrder]
  unfold expired at h
  cases hs : mapGet c.cache k with
  | none => rw [hs] at h; simp at h
  | some s => rfl

/-- One sweep seen from key `k`: the waiter is called exactly when `timedOut`
says so, and then both entries go; otherwise the waiter stays and the record
goes exactly when it has expired. -/
theorem watchTimeoutTick_key (now : Time) (ord1 ord2 : List String) (c : recordCache)
    (k : String) :
    (watchTimeoutTick now ord1 ord2 c).1.expire = c.expire ∧
    callsFor k (watchTimeoutTick now ord1 ord2 c).2 = (timedOut now c k).toList ∧
    mapGet (watchTimeoutTick now ord1 ord2 c).1.subscribers k
      = (if (timedOut now c k).isSome = true then none else mapGet c.subscribers k) ∧
    mapGet (watchTimeoutTick now ord1 ord2 c).1.cache k
      = (if (timedOut now c k).isSome = true ∨ expired now c k = true then none
         else mapGet c.cache k) := by
  obtain ⟨a1, a2, a3, a4⟩ :=
    foldl_sweepSubscriber_key now (rangeOrder c.subscribers ord1) (c, []) k
  have hfire : (if k ∈ rangeOrder c.subscribers ord1 then timedOut now c k else none)
      = timedOut now c k := by
    by_cases h : (timedOut now c k).isSome = true
    · simp [timedOut_isSome_mem now c k ord1 h]
    · have hn : timedOut now c k = none := by
        cases ht : timedOut now c k with
        | none => rfl
        | some i => rw [ht] at h; simp at h
      simp [hn]
  simp only [hfire] at a2 a3 a4
  obtain ⟨b1, b2, b3⟩ := foldl_sweepRecord_key now
    (rangeOrder ((rangeOrder c.subscribers ord1).foldl (sweepSubscriber now) (c, [])).1.cache ord2)
    ((rangeOrder c.subscribers ord1).foldl (sweepSubscriber now) (c, [])).1 k
  unfold watchTimeoutTick
  simp only []
  refine ⟨by rw [b1, a1], ?_, by rw [b2, a3], ?_⟩
  · rw [a2]; simp [callsFor]
  · rw [b3, a4]
    by_cases ht : (timedOut now c k).isSome = true
    · simp [ht]
    · have hexp : expired now ((rangeOrder c.subscribers ord1).foldl (sweepSubscriber now)
          (c, [])).1 k = expired now c k :=
        expired_congr now c _ k a1 (by rw [a4]; simp [ht])
      by_cases he : expired now c k = true
      · have hmem := expired_mem now _ k ord2 (hexp.trans he)
        simp [hexp, he, hmem]
      · simp [hexp, he, ht]

/-! ## Properties of the sweep -/

theorem timedOut_of_waiter_record (now : Time) (c : recordCache) (k : String) (s : subscriber)
    (r : records) (hs : mapGet c.subscribers k = some s) (hr : mapGet c.cache k = some r) :
    timedOut now c k =
      if since now s.startTime > s.timeout then
        some { key := k, callback := s.callback, arg := r }
      else none := by
  unfold timedOut
  rw [hs, hr]

theorem timedOut_of_no_record (now : Time) (c : recordCache) (k : String)
    (hr : mapGet c.cache k = none) : timedOut now c k = none := by
  unfold timedOut
  rw [hr]
  cases mapGet c.subscribers k with
  | none => rfl
  | some s => simp

theorem expired_of_record (now : Time) (c : recordCache) (k : String) (r : records)
    (hr : mapGet c.cache k = some r) :
    expired now c k = decide (since now r.time > c.expire) := by
  unfold expired
  rw [hr]

/-- C4: when key `k` has a waiter `s` and a record `r`, a sweep at a time `now`
with `since now s.startTime > s.timeout` calls the callback of `s` exactly once
for `k`, with `r` itself (so an unfinished record arrives with its list as it
is and `finished = false`), and leaves neither a record nor a waiter for `k`;
a sweep at a time with `since now s.startTime ≤ s.timeout` makes no call for
`k` and keeps the waiter. -/
theorem timeout_delivers_record (now : Time) (ord1 ord2 : List String) (c : recordCache)
    (k : String) (s : subscriber) (r : records)
    (hs : mapGet c.subscribers k = some s) (hr : mapGet c.cache k = some r) :
    (since now s.startTime > s.timeout →
      callsFor k (watchTimeoutTick now ord1 ord2 c).2
        = [{ key := k, callback := s.callback, arg := r }] ∧
      mapGet (watchTimeoutTick now ord1 ord2 c).1.cache k = none ∧
      mapGet (watchTimeoutTick now ord1 ord2 c).1.subscribers k = none) ∧
    (since now s.startTime ≤ s.timeout →
      callsFor k (watchTimeoutTick now ord1 ord2 c).2 = [] ∧
      mapGet (watchTimeoutTick now ord1 ord2 c).1.subscribers k = some s) := by
  obtain ⟨_, t2, t3, t4⟩ := watchTimeoutTick_key now ord1 ord2 c k
  rw [timedOut_of_waiter_record now c k s r hs hr] at t2 t3 t4
  constructor
  · intro h
    simp only [h, if_true, Option.toList_some, Option.isSome_some, true_or] at t2 t3 t4
    exact ⟨t2, t4, t3⟩
  · intro h
    have h2 : ¬ since now s.startTime > s.timeout := not_lt.mpr h
    simp only [h2, if_false, Option.toList_none, Option.isSome_none, Bool.false_eq_true] at t2 t3
    exact ⟨t2, t3.trans hs⟩

/-- Witness for C4: a waiter registered at time 0 with a timeout of one second
and an unfinished record, swept at two seconds. -/
theorem timeout_delivers_record_witness :
    (since (2 * second) (⟨7, second, 0⟩ : subscriber).startTime
        > (⟨7, second, 0⟩ : subscriber).timeout →
      callsFor "d-c-1" (watchTimeoutTick (2 * second) [] []
          ⟨60 * second, [("d-c-1", ⟨0, 3, false, [1]⟩)], [("d-c-1", ⟨7, second, 0⟩)]⟩).2
        = [{ key := "d-c-1", callback := (⟨7, second, 0⟩ : subscriber).callback,
             arg := ⟨0, 3, false, [1]⟩ }] ∧
      mapGet (watchTimeoutTick (2 * second) [] []
          ⟨60 * second, [("d-c-1", ⟨0, 3, false, [1]⟩)], [("d-c-1", ⟨7, second, 0⟩)]⟩).1.cache
          "d-c-1" = none ∧
      mapGet (watchTimeoutTick (2 * second) [] []
          ⟨60 * second, [("d-c-1", ⟨0, 3, false, [1]⟩)],
            [("d-c-1", ⟨7, second, 0⟩)]⟩).1.subscribers "d-c-1" = none) ∧
    (since (2 * second) (⟨7, second, 0⟩ : subscriber).startTime
        ≤ (⟨7, second, 0⟩ : subscriber).timeout →
      callsFor "d-c-1" (watchTimeoutTick (2 * second) [] []
          ⟨60 * second, [("d-c-1", ⟨0, 3, false, [1]⟩)], [("d-c-1", ⟨7, second, 0⟩)]⟩).2 = [] ∧
      mapGet (watchTimeoutTick (2 * second) [] []
          ⟨60 * second, [("d-c-1", ⟨0, 3, false, [1]⟩)],
            [("d-c-1", ⟨7, second, 0⟩)]⟩).1.subscribers "d-c-1" = some ⟨7, second, 0⟩) :=
  timeout_delivers_record (2 * second) [] []
    ⟨60 * second, [("d-c-1", ⟨0, 3, false, [1]⟩)], [("d-c-1", ⟨7, second, 0⟩)]⟩
    "d-c-1" ⟨7, second, 0⟩ ⟨0, 3, false, [1]⟩ (by decide) (by decide)

/-- C5 as stated fails: after `SubscribeOnce("dev2", "ch1", 1, cb, 1s)` at time 0
and no `Put`, the sweep at two seconds finds the timeout passed and no record,
calls nothing, and the waiter is still in the subscribers map. -/
theorem timed_out_waiter_without_record_stays :
    mapGet (SubscribeOnce NewRecordCache "dev2" "ch1" 1 ⟨7, second, 0⟩).cache
        (recordKey "dev2" "ch1" 1) = none ∧
    since (2 * second) 0 > second ∧
    (watchTimeoutTick (2 * second) [] []
        (SubscribeOnce NewRecordCache "dev2" "ch1" 1 ⟨7, second, 0⟩)).2 = [] ∧
    mapGet (watchTimeoutTick (2 * second) [] []
        (SubscribeOnce NewRecordCache "dev2" "ch1" 1 ⟨7, second, 0⟩)).1.subscribers
        (recordKey "dev2" "ch1" 1) = some ⟨7, second, 0⟩ := by
  decide

/-- C5, amended: when key `k` has a waiter `s` and no record, a sweep at any
time `now`, in particular one with `since now s.startTime > s.timeout`, makes
no call for `k` and leaves the entry of `k` in the subscribers map as it was. -/
theorem waiter_without_record_kept (now : Time) (ord1 ord2 : List String) (c : recordCache)
    (k : String) (s : subscriber)
    (hs : mapGet c.subscribers k = some s) (hr : mapGet c.cache k = none) :
    callsFor k (watchTimeoutTick now ord1 ord2 c).2 = [] ∧
    mapGet (watchTimeoutTick now ord1 ord2 c).1.subscribers k = some s ∧
    mapGet (watchTimeoutTick now ord1 ord2 c).1.cache k = none := by
  obtain ⟨_, t2, t3, t4⟩ := watchTimeoutTick_key now ord1 ord2 c k
  rw [timedOut_of_no_record now c k hr] at t2 t3 t4
  simp only [Option.toList_none, Option.isSome_none, Bool.false_eq_true, if_false] at t2 t3
  refine ⟨t2, t3.trans hs, ?_⟩
  rw [t4, hr]
  simp

/-- Witness for C5, amended: the waiter of the scenario, swept after its timeout. -/
theorem waiter_without_record_kept_witness :
    callsFor "dev2-ch1-1" (watchTimeoutTick (2 * second) [] []
        ⟨60 * second, [], [("dev2-ch1-1", ⟨7, second, 0⟩)]⟩).2 = [] ∧
    mapGet (watchTimeoutTick (2 * second) [] []
        ⟨60 * second, [], [("dev2-ch1-1", ⟨7, second, 0⟩)]⟩).1.subscribers "dev2-ch1-1"
      = some ⟨7, second, 0⟩ ∧
    mapGet (watchTimeoutTick (2 * second) [] []
        ⟨60 * second, [], [("dev2-ch1-1", ⟨7, second, 0⟩)]⟩).1.cache "dev2-ch1-1" = none :=
  waiter_without_record_kept (2 * second) [] []
    ⟨60 * second, [], [("dev2-ch1-1", ⟨7, second, 0⟩)]⟩ "dev2-ch1-1" ⟨7, second, 0⟩
    (by decide) (by decide)

theorem Put_fresh_pending (now : Time) (c : recordCache) (d ch : String) (sn sum : Int)
    (fs : List Record) (h0 : mapGet c.cache (recordKey d ch sn) = none)
    (hne : (fs.length : Int) ≠ sum) :
    mapGet (Put now c d ch sn sum fs).1.cache (recordKey d ch sn)
      = some { time := now, sum := sum, finished := false, list := fs } := by
  have hr := doPut_of_none now c d ch sn sum fs h0
  rw [if_neg hne] at hr
  have hP : Put now c d ch sn sum fs = ((doPut now c d ch sn sum fs).1, []) := by
    unfold Put
    simp [hr]
  have hc : (doPut now c d ch sn sum fs).1.cache
      = mapSet c.cache (recordKey d ch sn) (doPut now c d ch sn sum fs).2.2 := rfl
  rw [hP]
  simp only [hc, mapGet_mapSet_self, hr]

/-- C7: a record `r` stored under a key with no waiter is removed by a sweep at
time `now`, with no call for the key, when `since now r.time > expire`, and is
kept as it is when `since now r.time ≤ expire`.  After the removal the next
`Put(d, ch, sn, sum, fs)` has `doPut` store and return a new record with list
`fs`, the time of that `Put` and the given total, and that record stays in the
cache unless `fs` already completes it. -/
theorem eviction_then_fresh_record (now : Time) (ord1 ord2 : List String) (c : recordCache)
    (d ch : String) (sn : Int) (r : records)
    (hr : mapGet c.cache (recordKey d ch sn) = some r)
    (hs : mapGet c.subscribers (recordKey d ch sn) = none) :
    callsFor (recordKey d ch sn) (watchTimeoutTick now ord1 ord2 c).2 = [] ∧
    (since now r.time ≤ c.expire →
      mapGet (watchTimeoutTick now ord1 ord2 c).1.cache (recordKey d ch sn) = some r) ∧
    (since now r.time > c.expire →
      mapGet (watchTimeoutTick now ord1 ord2 c).1.cache (recordKey d ch sn) = none ∧
      ∀ (now' : Time) (sum : Int) (fs : List Record),
        (doPut now' (watchTimeoutTick now ord1 ord2 c).1 d ch sn sum fs).2.2.list = fs ∧
        (doPut now' (watchTimeoutTick now ord1 ord2 c).1 d ch sn sum fs).2.2.time = now' ∧
        (doPut now' (watchTimeoutTick now ord1 ord2 c).1 d ch sn sum fs).2.2.sum = sum ∧
        mapGet (doPut now' (watchTimeoutTick now ord1 ord2 c).1 d ch sn sum fs).1.cache
            (recordKey d ch sn)
          = some (doPut now' (watchTimeoutTick now ord1 ord2 c).1 d ch sn sum fs).2.2 ∧
        ((fs.length : Int) ≠ sum →
          mapGet (Put now' (watchTimeoutTick now ord1 ord2 c).1 d ch sn sum fs).1.cache
              (recordKey d ch sn)
            = some { time := now', sum := sum, finished := false, list := fs })) := by
  obtain ⟨_, t2, _, t4⟩ := watchTimeoutTick_key now ord1 ord2 c (recordKey d ch sn)
  rw [timedOut_of_no_waiter now c _ hs] at t2 t4
  rw [expired_of_record now c _ r hr] at t4
  simp only [Option.isSome_none, Bool.false_eq_true, false_or, decide_eq_true_eq] at t4
  refine ⟨(by simpa using t2), ?_, ?_⟩
  · intro h
    rw [t4, if_neg (not_lt.mpr h), hr]
  · intro h
    rw [if_pos h] at t4
    refine ⟨t4, ?_⟩
    intro now' sum fs
    have hd := doPut_of_none now' (watchTimeoutTick now ord1 ord2 c).1 d ch sn sum fs t4
    refine ⟨?_, ?_, ?_, mapGet_mapSet_self _ _ _, Put_fresh_pending _ _ _ _ _ _ _ t4⟩
    · rw [hd]; split <;> rfl
    · rw [hd]; split <;> rfl
    · rw [hd]; split <;> rfl

/-- Witness for C7: a record created at time 0, no waiter, retention of sixty seconds. -/
theorem eviction_then_fresh_record_witness :
    callsFor (recordKey "d" "c" 1) (watchTimeoutTick (61 * second) [] []
        ⟨60 * second, [("d-c-1", ⟨0, 3, false, [1]⟩)], []⟩).2 = [] ∧
    (since (61 * second) (⟨0, 3, false, [1]⟩ : records).time
        ≤ (⟨60 * second, [("d-c-1", ⟨0, 3, false, [1]⟩)], []⟩ : recordCache).expire →
      mapGet (watchTimeoutTick (61 * second) [] []
        ⟨60 * second, [("d-c-1", ⟨0, 3, false, [1]⟩)], []⟩).1.cache (recordKey "d" "c" 1)
        = some ⟨0, 3, false, [1]⟩) ∧
    (since (61 * second) (⟨0, 3, false, [1]⟩ : records).time
        > (⟨60 * second, [("d-c-1", ⟨0, 3, false, [1]⟩)], []⟩ : recordCache).expire →
      mapGet (watchTimeoutTick (61 * second) [] []
        ⟨60 * second, [("d-c-1", ⟨0, 3, false, [1]⟩)], []⟩).1.cache (recordKey "d" "c" 1)
        = none ∧
      ∀ (now' : Time) (sum : Int) (fs : List Record),
        (doPut now' (watchTimeoutTick (61 * second) [] []
          ⟨60 * second, [("d-c-1", ⟨0, 3, false, [1]⟩)], []⟩).1 "d" "c" 1 sum fs).2.2.list
          = fs ∧
        (doPut now' (watchTimeoutTick (61 * second) [] []
          ⟨60 * second, [("d-c-1", ⟨0, 3, false, [1]⟩)], []⟩).1 "d" "c" 1 sum fs).2.2.time
          = now' ∧
        (doPut now' (watchTimeoutTick (61 * second) [] []
          ⟨60 * second, [("d-c-1", ⟨0, 3, false, [1]⟩)], []⟩).1 "d" "c" 1 sum fs).2.2.sum
          = sum ∧
        mapGet (doPut now' (watchTimeoutTick (61 * second) [] []
          ⟨60 * second, [("d-c-1", ⟨0, 3, false, [1]⟩)], []⟩).1 "d" "c" 1 sum fs).1.cache
            (recordKey "d" "c" 1)
          = some (doPut now' (watchTimeoutTick (61 * second) [] []
              ⟨60 * second, [("d-c-1", ⟨0, 3, false, [1]⟩)], []⟩).1 "d" "c" 1 sum fs).2.2 ∧
        ((fs.length : Int) ≠ sum →
          mapGet (Put now' (watchTimeoutTick (61 * second) [] []
            ⟨60 * second, [("d-c-1", ⟨0, 3, false, [1]⟩)], []⟩).1 "d" "c" 1 sum fs).1.cache
              (recordKey "d" "c" 1)
            = some { time := now', sum := sum, finished := false, list := fs })) :=
  eviction_then_fresh_record (61 * second) [] []
    ⟨60 * second, [("d-c-1", ⟨0, 3, false, [1]⟩)], []⟩ "d" "c" 1 ⟨0, 3, false, [1]⟩
    (by decide) (by decide)

/-! ## Completion -/

/-- C3 as stated fails.  With calls `Put(total 1, [10])`, `Put(total 2, [11])`
the lengths sum to the final total 2, yet the first call completes with a list
of length 1, the record is dropped, and no returned record has length 2.
With two calls `Put(total 0, [])` the lengths sum to the final total 0 and both
calls detect completion. -/
theorem completion_as_stated_fails :
    mapGet NewRecordCache.cache (recordKey "d" "c" 1) = none ∧
    (((([(0, 1, [10]), (1, 2, [11])] : List (Time × Int × List Record)).map
        (fun p => p.2.2.length)).sum : Nat) : Int) = 2 ∧
    (putResults NewRecordCache "d" "c" 1 [(0, 1, [10]), (1, 2, [11])]).map
        (fun r => (r.finished, r.list)) = [(true, [10]), (false, [11])] ∧
    mapGet (run NewRecordCache (putOps "d" "c" 1 [(0, 1, [10]), (1, 2, [11])])).1.cache
        (recordKey "d" "c" 1) = some ⟨1, 2, false, [11]⟩ ∧
    (((([(0, 0, []), (1, 0, [])] : List (Time × Int × List Record)).map
        (fun p => p.2.2.length)).sum : Nat) : Int) = 0 ∧
    ((putResults NewRecordCache "d" "c" 1 [(0, 0, []), (1, 0, [])]).filter
        (fun r => r.finished)).length = 2 := by
  decide

/-- C3, amended: for `Put` calls on one key, starting with no record for it,
whose fragment lists have lengths summing to the expected total of the last
call, and such that no earlier call brings the running count to the total that
call supplies: the last call, and only it, detects completion (its `doPut`
returns `finished = true`, hence `notify` runs); the list it returns is the
concatenation of the fragments, of length the last expected total; afterwards
the cache holds no record for the key. -/
theorem completion_detected_once (c : recordCache) (d ch : String) (sn : Int)
    (init : List (Time × Int × List Record)) (last : Time × Int × List Record)
    (h0 : mapGet c.cache (recordKey d ch sn) = none)
    (hno : noEarlyCompletion 0 init = true)
    (hsum : ((((init ++ [last]).map (fun p => p.2.2.length)).sum : Nat) : Int) = last.2.1) :
    ∃ r : records,
      putResults c d ch sn (init ++ [last]) = putResults c d ch sn init ++ [r] ∧
      (∀ r' ∈ putResults c d ch sn init, r'.finished = false) ∧
      r.finished = true ∧
      r.list = ((init ++ [last]).map (fun p => p.2.2)).flatten ∧
      (r.list.length : Int) = last.2.1 ∧
      ((putResults c d ch sn (init ++ [last])).filter (fun r => r.finished)).length = 1 ∧
      mapGet (run c (putOps d ch sn (init ++ [last]))).1.cache (recordKey d ch sn) = none := by
  have hno' : noEarlyCompletion (curList c (recordKey d ch sn)).length init = true := by
    rw [curList_of_none c _ h0]; exact hno
  have hp := pendingAt_of_none c _ h0
  obtain ⟨_, _, _, a4, _⟩ := run_putOps_pending d ch sn init c hp hno'
  rw [curList_of_none c _ h0, List.nil_append] at a4
  have hall := putResults_pending d ch sn init c hp hno'
  have hlenflat : ∀ l : List (Time × Int × List Record),
      ((l.map (fun p => p.2.2)).flatten).length = (l.map (fun p => p.2.2.length)).sum := by
    intro l
    induction l with
    | nil => rfl
    | cons p l ih => simp [ih]
  have hlen : ((curList (run c (putOps d ch sn init)).1 (recordKey d ch sn)
      ++ last.2.2).length : Int) = last.2.1 := by
    rw [a4, List.length_append, hlenflat]
    simp only [List.map_append, List.sum_append, List.map_cons, List.map_nil, List.sum_cons,
      List.sum_nil] at hsum
    omega
  have hres : putResults c d ch sn (init ++ [last]) = putResults c d ch sn init ++
      [(doPut last.1 (run c (putOps d ch sn init)).1 d ch sn last.2.1 last.2.2).2.2] := by
    rw [putResults_append]
    rfl
  have hfin := doPut_finished_of_eq last.1 (run c (putOps d ch sn init)).1 d ch sn
    last.2.1 last.2.2 hlen
  have hlist : (doPut last.1 (run c (putOps d ch sn init)).1 d ch sn last.2.1 last.2.2).2.2.list
      = ((init ++ [last]).map (fun p => p.2.2)).flatten := by
    rw [doPut_list, a4]
    simp only [List.map_append, List.flatten_append, List.map_cons, List.map_nil,
      List.flatten_cons, List.flatten_nil, List.append_nil]
  refine ⟨_, hres, hall, hfin, hlist, ?_, ?_, ?_⟩
  · rw [doPut_list]; exact hlen
  · rw [hres, List.filter_append]
    have hnil : (putResults c d ch sn init).filter (fun r => r.finished) = [] := by
      rw [List.filter_eq_nil_iff]
      intro r' hr'
      simp [hall r' hr']
    rw [hnil]
    simp [hfin]
  · have hops : putOps d ch sn (init ++ [last])
        = putOps d ch sn init ++ [(last.1, Op.put d ch sn last.2.1 last.2.2)] := by
      simp [putOps]
    rw [hops, run_append, run_singleton]
    exact (Put_complete last.1 _ d ch sn last.2.1 last.2.2 hlen).2.1

/-- Witness for C3, amended: totals 5 then 2, fragments `[10]` then `[11]`. -/
theorem completion_detected_once_witness :
    ∃ r : records,
      putResults NewRecordCache "d" "c" 1 ([(0, 5, [10])] ++ [(1, 2, [11])])
        = putResults NewRecordCache "d" "c" 1 [(0, 5, [10])] ++ [r] ∧
      (∀ r' ∈ putResults NewRecordCache "d" "c" 1 [(0, 5, [10])], r'.finished = false) ∧
      r.finished = true ∧
      r.list = ((([(0, 5, [10])] : List (Time × Int × List Record)) ++ [(1, 2, [11])]).map
        (fun p : Time × Int × List Record => p.2.2)).flatten ∧
      (r.list.length : Int) = ((1, 2, [11]) : Time × Int × List Record).2.1 ∧
      ((putResults NewRecordCache "d" "c" 1 ([(0, 5, [10])] ++ [(1, 2, [11])])).filter
        (fun r => r.finished)).length = 1 ∧
      mapGet (run NewRecordCache (putOps "d" "c" 1 ([(0, 5, [10])] ++ [(1, 2, [11])]))).1.cache
        (recordKey "d" "c" 1) = none :=
  completion_detected_once NewRecordCache "d" "c" 1 [(0, 5, [10])] (1, 2, [11])
    (by decide) (by decide) (by decide)

/-! ## At most one call per registration -/

theorem holders_mapDelete_le (cb : Nat) (m : List (String × subscriber)) (k : String) :
    holders cb (mapDelete m k) ≤ holders cb m := by
  unfold holders mapDelete
  rw [List.filter_comm]
  exact List.length_filter_le _ _

theorem holders_mapDelete_lt (cb : Nat) (m : List (String × subscriber)) (k : String)
    (s : subscriber) (hs : mapGet m k = some s) (hcb : s.callback = cb) :
    holders cb (mapDelete m k) + 1 ≤ holders cb m := by
  induction m with
  | nil => simp [mapGet] at hs
  | cons e m ih =>
    by_cases hk : e.1 = k
    · simp only [mapGet, hk, if_true, Option.some.injEq] at hs
      have hd : mapDelete (e :: m) k = mapDelete m k := by
        simp [mapDelete, hk]
      have hh : holders cb (e :: m) = holders cb m + 1 := by
        simp [holders, hs, hcb]
      rw [hd, hh]
      exact Nat.succ_le_succ (holders_mapDelete_le cb m k)
    · simp only [mapGet, hk, if_false] at hs
      have hd : mapDelete (e :: m) k = e :: mapDelete m k := by
        simp [mapDelete, hk]
      rw [hd]
      have := ih hs
      by_cases hc : e.2.callback = cb
      · have h1 : holders cb (e :: mapDelete m k) = holders cb (mapDelete m k) + 1 := by
          simp [holders, hc]
        have h2 : holders cb (e :: m) = holders cb m + 1 := by
          simp [holders, hc]
        omega
      · have h1 : holders cb (e :: mapDelete m k) = holders cb (mapDelete m k) := by
          simp [holders, hc]
        have h2 : holders cb (e :: m) = holders cb m := by
          simp [holders, hc]
        omega

theorem holders_mapSet_le (cb : Nat) (m : List (String × subscriber)) (k : String)
    (v : subscriber) :
    holders cb (mapSet m k v) ≤ holders cb m + (if v.callback = cb then 1 else 0) := by
  have h := holders_mapDelete_le cb m k
  by_cases hc : v.callback = cb
  · have h1 : holders cb (mapSet m k v) = holders cb (mapDelete m k) + 1 := by
      simp [holders, mapSet, hc]
    simp only [hc, if_true]
    omega
  · have h1 : holders cb (mapSet m k v) = holders cb (mapDelete m k) := by
      simp [holders, mapSet, hc]
    simp only [hc, if_false]
    omega

theorem callCount_append (cb : Nat) (a b : List Invocation) :
    callCount cb (a ++ b) = callCount cb a + callCount cb b := by
  simp [callCount]

theorem notify_calls_le (cb : Nat) (c : recordCache) (k : String) (r : records) :
    callCount cb (notify c k r).2 + holders cb (notify c k r).1.subscribers
      ≤ holders cb c.subscribers := by
  have hsub : (notify c k r).1.subscribers = mapDelete c.subscribers k := rfl
  rw [hsub]
  cases hs : mapGet c.subscribers k with
  | none =>
    have h2 : (notify c k r).2 = [] := by simp [notify, hs]
    rw [h2]
    have := holders_mapDelete_le cb c.subscribers k
    simp only [callCount, List.filter_nil, List.length_nil, zero_add]
    exact this
  | some s =>
    have h2 : (notify c k r).2 = [{ key := k, callback := s.callback, arg := r }] := by
      simp [notify, hs]
    rw [h2]
    by_cases hc : s.callback = cb
    · have := holders_mapDelete_lt cb c.subscribers k s hs hc
      have h3 : callCount cb [({ key := k, callback := s.callback, arg := r } : Invocation)]
          = 1 := by
        simp [callCount, hc]
      omega
    · have := holders_mapDelete_le cb c.subscribers k
      have h3 : callCount cb [({ key := k, callback := s.callback, arg := r } : Invocation)]
          = 0 := by
        simp [callCount, hc]
      omega

theorem Put_calls_le (cb : Nat) (now : Time) (c : recordCache) (d ch : String) (sn sum : Int)
    (fs : List Record) :
    callCount cb (Put now c d ch sn sum fs).2 + holders cb (Put now c d ch sn sum fs).1.subscribers
      ≤ holders cb c.subscribers := by
  have hsub : (doPut now c d ch sn sum fs).1.subscribers = c.subscribers := rfl
  unfold Put
  simp only []
  split
  · have := notify_calls_le cb (doPut now c d ch sn sum fs).1 (doPut now c d ch sn sum fs).2.1
      (doPut now c d ch sn sum fs).2.2
    rw [hsub] at this
    exact this
  · simp [callCount, hsub]

theorem sweepSubscriber_calls_le (cb : Nat) (now : Time) (acc : recordCache × List Invocation)
    (k : String) :
    callCount cb (sweepSubscriber now acc k).2 + holders cb (sweepSubscriber now acc k).1.subscribers
      ≤ callCount cb acc.2 + holders cb acc.1.subscribers := by
  unfold sweepSubscriber
  split
  · exact Nat.le_refl _
  · split
    · split
      · rename_i r _
        have := notify_calls_le cb acc.1 k r
        simp only [callCount_append]
        omega
      · exact Nat.le_refl _
    · exact Nat.le_refl _

theorem foldl_sweepSubscriber_calls_le (cb : Nat) (now : Time) (ks : List String)
    (acc : recordCache × List Invocation) :
    callCount cb (ks.foldl (sweepSubscriber now) acc).2
        + holders cb (ks.foldl (sweepSubscriber now) acc).1.subscribers
      ≤ callCount cb acc.2 + holders cb acc.1.subscribers := by
  induction ks generalizing acc with
  | nil => exact Nat.le_refl _
  | cons k ks ih =>
    simp only [List.foldl_cons]
    exact Nat.le_trans (ih _) (sweepSubscriber_calls_le cb now acc k)

theorem watchTimeoutTick_calls_le (cb : Nat) (now : Time) (ord1 ord2 : List String)
    (c : recordCache) :
    callCount cb (watchTimeoutTick now ord1 ord2 c).2
        + holders cb (watchTimeoutTick now ord1 ord2 c).1.subscribers
      ≤ holders cb c.subscribers := by
  have h1 := foldl_sweepSubscriber_calls_le cb now (rangeOrder c.subscribers ord1) (c, [])
  obtain ⟨_, b2, _⟩ := foldl_sweepRecord_key now
    (rangeOrder ((rangeOrder c.subscribers ord1).foldl (sweepSubscriber now) (c, [])).1.cache ord2)
    ((rangeOrder c.subscribers ord1).foldl (sweepSubscriber now) (c, [])).1 ""
  unfold watchTimeoutTick
  simp only []
  rw [b2]
  simpa [callCount] using h1

/-- Along any run, the calls of `cb` made plus the entries still holding `cb`
never exceed the entries that held it at the start plus its registrations. -/
theorem run_calls_le (cb : Nat) (ops : List (Time × Op)) (c : recordCache) :
    callCount cb (run c ops).2 + holders cb (run c ops).1.subscribers
      ≤ holders cb c.subscribers + regCount cb ops := by
  induction ops generalizing c with
  | nil => simp [run, regCount, callCount]
  | cons x ops ih =>
    obtain ⟨now, op⟩ := x
    have hrun : run c ((now, op) :: ops)
        = ((run (step c now op).1 ops).1, (step c now op).2 ++ (run (step c now op).1 ops).2) :=
      rfl
    rw [hrun]
    simp only [callCount_append]
    have hi := ih (step c now op).1
    cases op with
    | put d ch sn sum fs =>
      have hs := Put_calls_le cb now c d ch sn sum fs
      simp only [step, regCount] at hi ⊢
      omega
    | subscribeOnce d ch sn sub =>
      have hs := holders_mapSet_le cb c.subscribers (recordKey d ch sn) sub
      have he : callCount cb ([] : List Invocation) = 0 := rfl
      simp only [step, regCount, SubscribeOnce, he] at hi ⊢
      omega
    | tick ord1 ord2 =>
      have hs := watchTimeoutTick_calls_le cb now ord1 ord2 c
      simp only [step, regCount] at hi ⊢
      omega

/-- C2: in every sequence of `Put`, `SubscribeOnce` and sweep operations run
from the empty cache, each at any time, a callback registered by one
`SubscribeOnce` call of the sequence is called at most once, by a completing
`Put` or by a sweep. -/
theorem at_most_once_delivery (ops : List (Time × Op)) (cb : Nat)
    (hreg : regCount cb ops ≤ 1) :
    callCount cb (run NewRecordCache ops).2 ≤ 1 := by
  have h := run_calls_le cb ops NewRecordCache
  have h0 : holders cb NewRecordCache.subscribers = 0 := rfl
  omega

/-- Witness for C2: a waiter that times out with a record present, then a
`Put` that would complete, then a second sweep. -/
theorem at_most_once_delivery_witness :
    regCount 7 [((0 : Time), Op.put "d" "c" 1 2 [10]),
        (1, Op.subscribeOnce "d" "c" 1 ⟨7, second, 1⟩),
        (3 * second, Op.tick [] []), (4 * second, Op.put "d" "c" 1 1 [11]),
        (5 * second, Op.tick [] [])] ≤ 1 ∧
    callCount 7 (run NewRecordCache [((0 : Time), Op.put "d" "c" 1 2 [10]),
        (1, Op.subscribeOnce "d" "c" 1 ⟨7, second, 1⟩),
        (3 * second, Op.tick [] []), (4 * second, Op.put "d" "c" 1 1 [11]),
        (5 * second, Op.tick [] [])]).2 ≤ 1 :=
  ⟨by decide, at_most_once_delivery _ 7 (by decide)⟩

/-! ## Every call is made to a waiter present in the map -/

theorem timedOut_some (now : Time) (c : recordCache) (k : String) (i : Invocation)
    (h : timedOut now c k = some i) :
    ∃ s, mapGet c.subscribers k = some s ∧ i.key = k ∧ i.callback = s.callback := by
  unfold timedOut at h
  cases hs : mapGet c.subscribers k with
  | none => rw [hs] at h; cases h
  | some s =>
    rw [hs] at h
    simp only [] at h
    split at h
    · split at h
      · cases h; exact ⟨s, rfl, rfl, rfl⟩
      · cases h
    · cases h

theorem notify_waiters (P : String → Nat → Prop) (c : recordCache) (k : String) (r : records)
    (hP : ∀ k' s, mapGet c.subscribers k' = some s → P k' s.callback) :
    (∀ i ∈ (notify c k r).2, P i.key i.callback) ∧
    (∀ k' s, mapGet (notify c k r).1.subscribers k' = some s → P k' s.callback) := by
  constructor
  · intro i hi
    cases hs : mapGet c.subscribers k with
    | none => simp [notify, hs] at hi
    | some s =>
      simp only [notify, hs, List.mem_singleton] at hi
      rw [hi]
      exact hP k s hs
  · intro k' s hs
    have hsub : (notify c k r).1.subscribers = mapDelete c.subscribers k := rfl
    rw [hsub, mapGet_mapDelete] at hs
    by_cases hk : k' = k
    · simp [hk] at hs
    · simp only [hk, if_false] at hs
      exact hP k' s hs

theorem Put_waiters (P : String → Nat → Prop) (now : Time) (c : recordCache) (d ch : String)
    (sn sum : Int) (fs : List Record)
    (hP : ∀ k' s, mapGet c.subscribers k' = some s → P k' s.callback) :
    (∀ i ∈ (Put now c d ch sn sum fs).2, P i.key i.callback) ∧
    (∀ k' s, mapGet (Put now c d ch sn sum fs).1.subscribers k' = some s → P k' s.callback) := by
  have hsub : (doPut now c d ch sn sum fs).1.subscribers = c.subscribers := rfl
  unfold Put
  simp only []
  split
  · exact notify_waiters P _ _ _ (by rw [hsub]; exact hP)
  · exact ⟨(by intro i hi; cases hi), (by rw [hsub]; exact hP)⟩

theorem foldl_sweepSubscriber_waiters (P : String → Nat → Prop) (now : Time) (ks : List String)
    (acc : recordCache × List Invocation)
    (hcalls : ∀ i ∈ acc.2, P i.key i.callback)
    (hP : ∀ k' s, mapGet acc.1.subscribers k' = some s → P k' s.callback) :
    (∀ i ∈ (ks.foldl (sweepSubscriber now) acc).2, P i.key i.callback) ∧
    (∀ k' s, mapGet (ks.foldl (sweepSubscriber now) acc).1.subscribers k' = some s →
      P k' s.callback) := by
  induction ks generalizing acc with
  | nil => exact ⟨hcalls, hP⟩
  | cons k ks ih =>
    simp only [List.foldl_cons]
    apply ih
    · rw [sweepSubscriber_eq]
      cases ht : timedOut now acc.1 k with
      | none => exact hcalls
      | some j =>
        obtain ⟨s, hs, hk, hc⟩ := timedOut_some now acc.1 k j ht
        intro i hi
        simp only [List.mem_append, List.mem_singleton] at hi
        rcases hi with hi | hi
        · exact hcalls i hi
        · rw [hi, hk, hc]; exact hP k s hs
    · rw [sweepSubscriber_eq]
      cases ht : timedOut now acc.1 k with
      | none => exact hP
      | some j => exact (notify_waiters P acc.1 k j.arg hP).2

theorem watchTimeoutTick_waiters (P : String → Nat → Prop) (now : Time)
    (ord1 ord2 : List String) (c : recordCache)
    (hP : ∀ k' s, mapGet c.subscribers k' = some s → P k' s.callback) :
    (∀ i ∈ (watchTimeoutTick now ord1 ord2 c).2, P i.key i.callback) ∧
    (∀ k' s, mapGet (watchTimeoutTick now ord1 ord2 c).1.subscribers k' = some s →
      P k' s.callback) := by
  obtain ⟨h1, h2⟩ := foldl_sweepSubscriber_waiters P now (rangeOrder c.subscribers ord1) (c, [])
    (by intro i hi; cases hi) hP
  obtain ⟨_, b2, _⟩ := foldl_sweepRecord_key now
    (rangeOrder ((rangeOrder c.subscribers ord1).foldl (sweepSubscriber now) (c, [])).1.cache ord2)
    ((rangeOrder c.subscribers ord1).foldl (sweepSubscriber now) (c, [])).1 ""
  unfold watchTimeoutTick
  simp only []
  rw [b2]
  exact ⟨h1, h2⟩

/-- A property of all waiters present at the start and of all waiters
registered on the way holds of every call made and of all waiters left. -/
theorem run_waiters (P : String → Nat → Prop) (ops : List (Time × Op)) (c : recordCache)
    (hops : ∀ x ∈ ops, ∀ d ch sn sub, x.2 = Op.subscribeOnce d ch sn sub →
      P (recordKey d ch sn) sub.callback)
    (hP : ∀ k' s, mapGet c.subscribers k' = some s → P k' s.callback) :
    (∀ i ∈ (run c ops).2, P i.key i.callback) ∧
    (∀ k' s, mapGet (run c ops).1.subscribers k' = some s → P k' s.callback) := by
  induction ops generalizing c with
  | nil => exact ⟨(by intro i hi; cases hi), hP⟩
  | cons x ops ih =>
    obtain ⟨now, op⟩ := x
    have hrun : run c ((now, op) :: ops)
        = ((run (step c now op).1 ops).1, (step c now op).2 ++ (run (step c now op).1 ops).2) :=
      rfl
    have hstep : (∀ i ∈ (step c now op).2, P i.key i.callback) ∧
        (∀ k' s, mapGet (step c now op).1.subscribers k' = some s → P k' s.callback) := by
      cases op with
      | put d ch sn sum fs => exact Put_waiters P now c d ch sn sum fs hP
      | subscribeOnce d ch sn sub =>
        have hnew := hops (now, Op.subscribeOnce d ch sn sub) (List.mem_cons_self _ _)
          d ch sn sub rfl
        refine ⟨(by intro i hi; cases hi), ?_⟩
        intro k' s hs
        simp only [step, SubscribeOnce, mapGet_mapSet] at hs
        by_cases hk : k' = recordKey d ch sn
        · simp only [hk, if_true, Option.some.injEq] at hs
          rw [hk, ← hs]
          exact hnew
        · simp only [hk, if_false] at hs
          exact hP k' s hs
      | tick ord1 ord2 => exact watchTimeoutTick_waiters P now ord1 ord2 c hP
    obtain ⟨i1, i2⟩ := ih (step c now op).1
      (fun x hx => hops x (List.mem_cons_of_mem _ hx)) hstep.2
    rw [hrun]
    refine ⟨?_, i2⟩
    intro i hi
    simp only [List.mem_append] at hi
    rcases hi with hi | hi
    · exact hstep.1 i hi
    · exact i1 i hi

/-- C6: after `SubscribeOnce(key, sub1)`, any operations `mid`, and
`SubscribeOnce(key, sub2)`, the subscribers map holds `sub2` under the key.  In
every later sequence `ops` of `Put` and sweep operations every call made for
the key is a call of the callback of `sub2`; and the callback of `sub1`, when it
differs from that of `sub2` and is not held or registered under another key,
is never called. -/
theorem replacement (c : recordCache) (d ch : String) (sn : Int) (sub1 sub2 : subscriber)
    (mid ops : List (Time × Op))
    (hops : ∀ x ∈ ops, isSubscribe x.2 = false)
    (hne : sub1.callback ≠ sub2.callback)
    (hfresh : ∀ k' s, mapGet c.subscribers k' = some s → k' ≠ recordKey d ch sn →
      s.callback ≠ sub1.callback)
    (hmid : ∀ x ∈ mid, registersElsewhere (recordKey d ch sn) sub1.callback x.2 = false) :
    mapGet (SubscribeOnce (run (SubscribeOnce c d ch sn sub1) mid).1 d ch sn sub2).subscribers
      (recordKey d ch sn) = some sub2 ∧
    (∀ i ∈ (run (SubscribeOnce (run (SubscribeOnce c d ch sn sub1) mid).1 d ch sn sub2) ops).2,
      i.key = recordKey d ch sn → i.callback = sub2.callback) ∧
    (∀ i ∈ (run (SubscribeOnce (run (SubscribeOnce c d ch sn sub1) mid).1 d ch sn sub2) ops).2,
      i.callback ≠ sub1.callback) := by
  have hget : ∀ (c0 : recordCache) (sub : subscriber) (k' : String),
      mapGet (SubscribeOnce c0 d ch sn sub).subscribers k'
        = if k' = recordKey d ch sn then some sub else mapGet c0.subscribers k' := by
    intro c0 sub k'
    simp only [SubscribeOnce, mapGet_mapSet]
  have hvac : ∀ P : String → Nat → Prop, ∀ x ∈ ops, ∀ d' ch' sn' sub',
      x.2 = Op.subscribeOnce d' ch' sn' sub' → P (recordKey d' ch' sn') sub'.callback := by
    intro P x hx d' ch' sn' sub' hx2
    have := hops x hx
    rw [hx2] at this
    simp [isSubscribe] at this
  -- waiters under other keys never hold the callback of `sub1` up to the second registration
  have hmidP := (run_waiters (fun k cb => k ≠ recordKey d ch sn → cb ≠ sub1.callback) mid
    (SubscribeOnce c d ch sn sub1)
    (by
      intro x hx d' ch' sn' sub' hx2 hk hcb
      have := hmid x hx
      rw [hx2] at this
      simp [registersElsewhere, hk, hcb] at this)
    (by
      intro k' s hs hk
      rw [hget, if_neg hk] at hs
      exact hfresh k' s hs hk)).2
  refine ⟨(by rw [hget]; simp), ?_, ?_⟩
  · refine (run_waiters (fun k cb => k = recordKey d ch sn → cb = sub2.callback) ops _
      (hvac (fun k cb => k = recordKey d ch sn → cb = sub2.callback)) ?_).1
    intro k' s hs hk
    rw [hget, if_pos hk] at hs
    cases hs
    rfl
  · refine (run_waiters (fun _ cb => cb ≠ sub1.callback) ops _
      (hvac (fun _ cb => cb ≠ sub1.callback)) ?_).1
    intro k' s hs
    rw [hget] at hs
    by_cases hk : k' = recordKey d ch sn
    · rw [if_pos hk] at hs
      cases hs
      exact fun h => hne h.symm
    · rw [if_neg hk] at hs
      exact hmidP k' s hs hk

/-- Witness for C6: two registrations for one key with a `Put` in between,
then a completing `Put` and a sweep. -/
theorem replacement_witness :
    mapGet (SubscribeOnce (run (SubscribeOnce NewRecordCache "d" "c" 1 ⟨1, second, 0⟩)
      [((0 : Time), Op.put "d" "c" 1 2 [10])]).1
      "d" "c" 1 ⟨2, second, 0⟩).subscribers (recordKey "d" "c" 1) = some ⟨2, second, 0⟩ ∧
    (∀ i ∈ (run (SubscribeOnce (run (SubscribeOnce NewRecordCache "d" "c" 1 ⟨1, second, 0⟩)
        [((0 : Time), Op.put "d" "c" 1 2 [10])]).1 "d" "c" 1 ⟨2, second, 0⟩)
        [((1 : Time), Op.put "d" "c" 1 2 [11]), (2 * second, Op.tick [] [])]).2,
      i.key = recordKey "d" "c" 1 → i.callback = (⟨2, second, 0⟩ : subscriber).callback) ∧
    (∀ i ∈ (run (SubscribeOnce (run (SubscribeOnce NewRecordCache "d" "c" 1 ⟨1, second, 0⟩)
        [((0 : Time), Op.put "d" "c" 1 2 [10])]).1 "d" "c" 1 ⟨2, second, 0⟩)
        [((1 : Time), Op.put "d" "c" 1 2 [11]), (2 * second, Op.tick [] [])]).2,
      i.callback ≠ (⟨1, second, 0⟩ : subscriber).callback) :=
  replacement NewRecordCache "d" "c" 1 ⟨1, second, 0⟩ ⟨2, second, 0⟩
    [((0 : Time), Op.put "d" "c" 1 2 [10])]
    [((1 : Time), Op.put "d" "c" 1 2 [11]), (2 * second, Op.tick [] [])]
    (by decide) (by decide) (by intro k' s hs; cases hs) (by decide)

/-! ## The key, the stored total and the registration time -/

/-- C8 fails on the code: the device and channel pairs `("a-b", "c")` and
`("a", "b-c")` differ and get the same key with sequence number 1. -/
theorem recordKey_collision :
    recordKey "a-b" "c" 1 = recordKey "a" "b-c" 1 ∧ ("a-b", "c") ≠ ("a", "b-c") ∧
    recordKey "a-b" "c" 1 = "a-b-c-1" := by
  decide

/-- C9 as stated fails: after `Put(total 3, [10])` the call `doPut(total 5, [11])`
on the same key returns and stores a record whose expected total is still 3. -/
theorem stored_total_not_overwritten :
    (doPut 1 (Put 0 NewRecordCache "d" "c" 1 3 [10]).1 "d" "c" 1 5 [11]).2.2
      = ⟨0, 3, false, [10, 11]⟩ ∧
    mapGet (doPut 1 (Put 0 NewRecordCache "d" "c" 1 3 [10]).1 "d" "c" 1 5 [11]).1.cache
      (recordKey "d" "c" 1) = some ⟨0, 3, false, [10, 11]⟩ ∧
    (doPut 1 (Put 0 NewRecordCache "d" "c" 1 3 [10]).1 "d" "c" 1 5 [11]).2.2.sum ≠ 5 := by
  decide

/-- C9, amended: the record `doPut` stores under the key is the one it returns,
and its expected total is the total passed in this call when the key had no
record, and the total already stored, unchanged, when it had one. -/
theorem stored_total (now : Time) (c : recordCache) (d ch : String) (sn sum : Int)
    (fs : List Record) :
    (doPut now c d ch sn sum fs).2.1 = recordKey d ch sn ∧
    mapGet (doPut now c d ch sn sum fs).1.cache (recordKey d ch sn)
      = some (doPut now c d ch sn sum fs).2.2 ∧
    (doPut now c d ch sn sum fs).2.2.sum =
      (match mapGet c.cache (recordKey d ch sn) with
       | some v => v.sum
       | none => sum) := by
  refine ⟨rfl, mapGet_mapSet_self _ _ _, ?_⟩
  cases hg : mapGet c.cache (recordKey d ch sn) with
  | none => rw [doPut_of_none now c d ch sn sum fs hg]; split <;> rfl
  | some v => rw [doPut_of_some now c d ch sn sum fs v hg]; split <;> rfl

/-- C10 as stated fails: a `SubscribeOnce` executed when the clock reads 100
with a subscriber whose `startTime` is 0 stores the start time 0. -/
theorem registration_time_not_clock :
    (mapGet (step NewRecordCache 100 (Op.subscribeOnce "d" "c" 1 ⟨7, second, 0⟩)).1.subscribers
      (recordKey "d" "c" 1)).map (fun s => s.startTime) = some 0 ∧ (0 : Time) ≠ 100 := by
  decide

/-- C10, amended: whatever the clock reads, `SubscribeOnce` stores under the key
the subscriber it was given: callback, timeout and start time are the
caller's, and no call is made. -/
theorem registration_stores_argument (now : Time) (c : recordCache) (d ch : String) (sn : Int)
    (sub : subscriber) :
    mapGet (step c now (Op.subscribeOnce d ch sn sub)).1.subscribers (recordKey d ch sn)
      = some sub ∧
    (step c now (Op.subscribeOnce d ch sn sub)).1 = SubscribeOnce c d ch sn sub ∧
    (step c now (Op.subscribeOnce d ch sn sub)).2 = [] := by
  refine ⟨mapGet_mapSet_self _ _ _, rfl, rfl⟩

/-! ## Frame properties -/

theorem mem_mapDelete {V : Type} (m : List (String × V)) (k : String) (e : String × V)
    (h : e ∈ mapDelete m k) : e ∈ m ∧ e.1 ≠ k := by
  simpa [mapDelete] using h

/-- `Put` seen from a key other than its own: nothing changes and no call is made. -/
theorem Put_other_key (now : Time) (c : recordCache) (d ch : String) (sn sum : Int)
    (fs : List Record) (k : String) (hk : k ≠ recordKey d ch sn) :
    mapGet (Put now c d ch sn sum fs).1.cache k = mapGet c.cache k ∧
    mapGet (Put now c d ch sn sum fs).1.subscribers k = mapGet c.subscribers k ∧
    callsFor k (Put now c d ch sn sum fs).2 = [] ∧
    (Put now c d ch sn sum fs).1.expire = c.expire := by
  have hc : (doPut now c d ch sn sum fs).1.cache
      = mapSet c.cache (recordKey d ch sn) (doPut now c d ch sn sum fs).2.2 := rfl
  have hs : (doPut now c d ch sn sum fs).1.subscribers = c.subscribers := rfl
  have hkey : (doPut now c d ch sn sum fs).2.1 = recordKey d ch sn := rfl
  unfold Put
  simp only []
  split
  · refine ⟨?_, ?_, ?_, rfl⟩
    · simp only [notify, hkey, hc, mapGet_mapDelete_ne _ hk, mapGet_mapSet_ne _ _ hk]
    · simp only [notify, hkey, hs, mapGet_mapDelete_ne _ hk]
    · simp only [notify, hkey, hs]
      have hk2 : ¬ recordKey d ch sn = k := fun a => hk a.symm
      cases mapGet c.subscribers (recordKey d ch sn) with
      | none => rfl
      | some s => simp [callsFor, hk2]
  · refine ⟨?_, ?_, rfl, rfl⟩
    · simp only [hc, mapGet_mapSet_ne _ _ hk]
    · simp only [hs]

/-- C11: `SubscribeOnce` makes no call, leaves the cache map (and the
retention) as they are, also when the key already has a record, and changes the
subscribers map at `recordKey d ch sn` only, where it stores `sub`. -/
theorem subscribe_only_registers (now : Time) (c : recordCache) (d ch : String) (sn : Int)
    (sub : subscriber) (k : String) :
    (step c now (Op.subscribeOnce d ch sn sub)).2 = [] ∧
    (SubscribeOnce c d ch sn sub).cache = c.cache ∧
    (SubscribeOnce c d ch sn sub).expire = c.expire ∧
    mapGet (SubscribeOnce c d ch sn sub).subscribers k
      = (if k = recordKey d ch sn then some sub else mapGet c.subscribers k) ∧
    (step c now (Op.subscribeOnce d ch sn sub)).1 = SubscribeOnce c d ch sn sub := by
  refine ⟨rfl, rfl, rfl, ?_, rfl⟩
  simp only [SubscribeOnce, mapGet_mapSet]

/-- C15: `notify key r` calls the callback of the waiter stored for `key` exactly
once, with `r`, when there is one, and calls nothing otherwise; afterwards
neither map has an entry for `key` and the lookups under every other key are
as before. -/
theorem notify_postcondition (c : recordCache) (key : String) (r : records) (k : String) :
    (notify c key r).2 =
      (match mapGet c.subscribers key with
       | some s => [{ key := key, callback := s.callback, arg := r }]
       | none => []) ∧
    (∀ e ∈ (notify c key r).1.subscribers, e.1 ≠ key) ∧
    (∀ e ∈ (notify c key r).1.cache, e.1 ≠ key) ∧
    mapGet (notify c key r).1.subscribers k
      = (if k = key then none else mapGet c.subscribers k) ∧
    mapGet (notify c key r).1.cache k = (if k = key then none else mapGet c.cache k) ∧
    (notify c key r).1.expire = c.expire := by
  refine ⟨rfl, ?_, ?_, mapGet_mapDelete _ _ _, mapGet_mapDelete _ _ _, rfl⟩
  · intro e he
    exact (mem_mapDelete c.subscribers key e he).2
  · intro e he
    exact (mem_mapDelete c.cache key e he).2

/-- C16: `Put(d, ch, sn, sum, fs)` leaves the lookups of both maps under every
key string other than `recordKey d ch sn` as they were and makes no call for
such a key: every call it makes is for its own key. -/
theorem put_touches_own_key (now : Time) (c : recordCache) (d ch : String) (sn sum : Int)
    (fs : List Record) (k : String) (hk : k ≠ recordKey d ch sn) :
    mapGet (Put now c d ch sn sum fs).1.cache k = mapGet c.cache k ∧
    mapGet (Put now c d ch sn sum fs).1.subscribers k = mapGet c.subscribers k ∧
    callsFor k (Put now c d ch sn sum fs).2 = [] ∧
    (∀ i ∈ (Put now c d ch sn sum fs).2, i.key = recordKey d ch sn) := by
  obtain ⟨h1, h2, h3, _⟩ := Put_other_key now c d ch sn sum fs k hk
  refine ⟨h1, h2, h3, ?_⟩
  have hs : (doPut now c d ch sn sum fs).1.subscribers = c.subscribers := rfl
  have hkey : (doPut now c d ch sn sum fs).2.1 = recordKey d ch sn := rfl
  intro i hi
  unfold Put at hi
  simp only [] at hi
  split at hi
  · simp only [notify, hkey, hs] at hi
    cases hw : mapGet c.subscribers (recordKey d ch sn) with
    | none => rw [hw] at hi; cases hi
    | some s =>
      rw [hw] at hi
      simp only [List.mem_singleton] at hi
      rw [hi]
  · cases hi

/-- Witness for C16: a completing `Put` on one key while another key has a
record and a waiter. -/
theorem put_touches_own_key_witness :
    mapGet (Put 5 ⟨60 * second, [("x-y-2", ⟨0, 3, false, [1]⟩)],
        [("x-y-2", ⟨8, second, 0⟩), ("d-c-1", ⟨7, second, 0⟩)]⟩ "d" "c" 1 1 [10]).1.cache "x-y-2"
      = mapGet (⟨60 * second, [("x-y-2", ⟨0, 3, false, [1]⟩)],
        [("x-y-2", ⟨8, second, 0⟩), ("d-c-1", ⟨7, second, 0⟩)]⟩ : recordCache).cache "x-y-2" ∧
    mapGet (Put 5 ⟨60 * second, [("x-y-2", ⟨0, 3, false, [1]⟩)],
        [("x-y-2", ⟨8, second, 0⟩), ("d-c-1", ⟨7, second, 0⟩)]⟩ "d" "c" 1 1 [10]).1.subscribers
        "x-y-2"
      = mapGet (⟨60 * second, [("x-y-2", ⟨0, 3, false, [1]⟩)],
        [("x-y-2", ⟨8, second, 0⟩), ("d-c-1", ⟨7, second, 0⟩)]⟩ : recordCache).subscribers
        "x-y-2" ∧
    callsFor "x-y-2" (Put 5 ⟨60 * second, [("x-y-2", ⟨0, 3, false, [1]⟩)],
        [("x-y-2", ⟨8, second, 0⟩), ("d-c-1", ⟨7, second, 0⟩)]⟩ "d" "c" 1 1 [10]).2 = [] ∧
    (∀ i ∈ (Put 5 ⟨60 * second, [("x-y-2", ⟨0, 3, false, [1]⟩)],
        [("x-y-2", ⟨8, second, 0⟩), ("d-c-1", ⟨7, second, 0⟩)]⟩ "d" "c" 1 1 [10]).2,
      i.key = recordKey "d" "c" 1) :=
  put_touches_own_key 5 ⟨60 * second, [("x-y-2", ⟨0, 3, false, [1]⟩)],
    [("x-y-2", ⟨8, second, 0⟩), ("d-c-1", ⟨7, second, 0⟩)]⟩ "d" "c" 1 1 [10] "x-y-2"
    (by decide)

/-- C18: when key `k` has a record `r` and a waiter `s`, a sweep at a time `now`
with `since now r.time > expire` and `since now s.startTime ≤ s.timeout` deletes
the record, makes no call for `k`, and leaves the waiter in the subscribers
map. -/
theorem expiry_under_pending_waiter (now : Time) (ord1 ord2 : List String) (c : recordCache)
    (k : String) (s : subscriber) (r : records)
    (hs : mapGet c.subscribers k = some s) (hr : mapGet c.cache k = some r)
    (hexp : since now r.time > c.expire) (hwait : since now s.startTime ≤ s.timeout) :
    mapGet (watchTimeoutTick now ord1 ord2 c).1.cache k = none ∧
    callsFor k (watchTimeoutTick now ord1 ord2 c).2 = [] ∧
    mapGet (watchTimeoutTick now ord1 ord2 c).1.subscribers k = some s := by
  obtain ⟨_, t2, t3, t4⟩ := watchTimeoutTick_key now ord1 ord2 c k
  rw [timedOut_of_waiter_record now c k s r hs hr, if_neg (not_lt.mpr hwait)] at t2 t3 t4
  rw [expired_of_record now c k r hr] at t4
  simp only [Option.toList_none, Option.isSome_none, Bool.false_eq_true, if_false, false_or,
    decide_eq_true_eq, hexp, if_true] at t2 t3 t4
  exact ⟨t4, t2, t3.trans hs⟩

/-- Witness for C18: a record created at time 0, a waiter registered at fifty-five
seconds with a timeout of ten seconds, swept at sixty-one seconds. -/
theorem expiry_under_pending_waiter_witness :
    mapGet (watchTimeoutTick (61 * second) [] []
        ⟨60 * second, [("d-c-1", ⟨0, 3, false, [1]⟩)],
          [("d-c-1", ⟨7, 10 * second, 55 * second⟩)]⟩).1.cache "d-c-1" = none ∧
    callsFor "d-c-1" (watchTimeoutTick (61 * second) [] []
        ⟨60 * second, [("d-c-1", ⟨0, 3, false, [1]⟩)],
          [("d-c-1", ⟨7, 10 * second, 55 * second⟩)]⟩).2 = [] ∧
    mapGet (watchTimeoutTick (61 * second) [] []
        ⟨60 * second, [("d-c-1", ⟨0, 3, false, [1]⟩)],
          [("d-c-1", ⟨7, 10 * second, 55 * second⟩)]⟩).1.subscribers "d-c-1"
      = some ⟨7, 10 * second, 55 * second⟩ :=
  expiry_under_pending_waiter (61 * second) [] []
    ⟨60 * second, [("d-c-1", ⟨0, 3, false, [1]⟩)], [("d-c-1", ⟨7, 10 * second, 55 * second⟩)]⟩
    "d-c-1" ⟨7, 10 * second, 55 * second⟩ ⟨0, 3, false, [1]⟩
    (by decide) (by decide) (by decide) (by decide)

/-! ## No finished record is left in the cache -/

theorem mapGet_mem {V : Type} (m : List (String × V)) (k : String) (v : V)
    (h : mapGet m k = some v) : (k, v) ∈ m := by
  induction m with
  | nil => simp [mapGet] at h
  | cons e m ih =>
    by_cases hk : e.1 = k
    · simp only [mapGet, hk, if_true, Option.some.injEq] at h
      have : e = (k, v) := by
        rw [← hk, ← h]
      rw [this]
      exact List.mem_cons_self _ _
    · simp only [mapGet, hk, if_false] at h
      exact List.mem_cons_of_mem _ (ih h)

theorem Put_not_finished (now : Time) (c : recordCache) (d ch : String) (sn sum : Int)
    (fs : List Record) (h : (doPut now c d ch sn sum fs).2.2.finished = false) :
    Put now c d ch sn sum fs = ((doPut now c d ch sn sum fs).1, []) := by
  unfold Put
  simp [h]

theorem Put_finished (now : Time) (c : recordCache) (d ch : String) (sn sum : Int)
    (fs : List Record) (h : (doPut now c d ch sn sum fs).2.2.finished = true) :
    Put now c d ch sn sum fs
      = notify (doPut now c d ch sn sum fs).1 (recordKey d ch sn)
          (doPut now c d ch sn sum fs).2.2 := by
  unfold Put
  simp only [h, if_true]
  rfl

theorem Put_allPending (now : Time) (c : recordCache) (d ch : String) (sn sum : Int)
    (fs : List Record) (h : allPending c) : allPending (Put now c d ch sn sum fs).1 := by
  have hc : (doPut now c d ch sn sum fs).1.cache
      = mapSet c.cache (recordKey d ch sn) (doPut now c d ch sn sum fs).2.2 := rfl
  intro e he
  cases hf : (doPut now c d ch sn sum fs).2.2.finished with
  | false =>
    rw [Put_not_finished now c d ch sn sum fs hf] at he
    simp only [hc, mapSet, List.mem_cons] at he
    rcases he with he | he
    · rw [he]; exact hf
    · exact h e (mem_mapDelete _ _ e he).1
  | true =>
    rw [Put_finished now c d ch sn sum fs hf] at he
    have he2 := mem_mapDelete _ _ e he
    simp only [hc, mapSet, List.mem_cons] at he2
    rcases he2.1 with h1 | h1
    · exact absurd (by rw [h1]) he2.2
    · exact h e (mem_mapDelete _ _ e h1).1

theorem foldl_sweepSubscriber_cache_mem (now : Time) (ks : List String)
    (acc : recordCache × List Invocation) :
    ∀ e ∈ (ks.foldl (sweepSubscriber now) acc).1.cache, e ∈ acc.1.cache := by
  induction ks generalizing acc with
  | nil => intro e he; exact he
  | cons k ks ih =>
    intro e he
    simp only [List.foldl_cons] at he
    have h1 := ih (sweepSubscriber now acc k) e he
    rw [sweepSubscriber_eq] at h1
    cases ht : timedOut now acc.1 k with
    | none => rw [ht] at h1; exact h1
    | some i =>
      rw [ht] at h1
      exact (mem_mapDelete _ _ e h1).1

theorem foldl_sweepRecord_cache_mem (now : Time) (ks : List String) (c : recordCache) :
    ∀ e ∈ (ks.foldl (sweepRecord now) c).cache, e ∈ c.cache := by
  induction ks generalizing c with
  | nil => intro e he; exact he
  | cons k ks ih =>
    intro e he
    simp only [List.foldl_cons] at he
    have h1 := ih (sweepRecord now c k) e he
    rw [sweepRecord_eq] at h1
    by_cases hx : expired now c k = true
    · rw [if_pos hx] at h1
      exact (mem_mapDelete _ _ e h1).1
    · rw [if_neg hx] at h1
      exact h1

/-- A sweep adds no record to the cache map. -/
theorem watchTimeoutTick_cache_mem (now : Time) (ord1 ord2 : List String) (c : recordCache) :
    ∀ e ∈ (watchTimeoutTick now ord1 ord2 c).1.cache, e ∈ c.cache := by
  intro e he
  unfold watchTimeoutTick at he
  simp only [] at he
  exact foldl_sweepSubscriber_cache_mem now _ (c, []) e
    (foldl_sweepRecord_cache_mem now _ _ e he)

theorem run_allPending (ops : List (Time × Op)) (c : recordCache) (h : allPending c) :
    allPending (run c ops).1 := by
  induction ops generalizing c with
  | nil => exact h
  | cons x ops ih =>
    obtain ⟨now, op⟩ := x
    have hrun : (run c ((now, op) :: ops)).1 = (run (step c now op).1 ops).1 := rfl
    rw [hrun]
    apply ih
    cases op with
    | put d ch sn sum fs => exact Put_allPending now c d ch sn sum fs h
    | subscribeOnce d ch sn sub => exact h
    | tick ord1 ord2 =>
      intro e he
      exact h e (watchTimeoutTick_cache_mem now ord1 ord2 c e he)

theorem allPending_NewRecordCache : allPending NewRecordCache := by
  intro e he
  cases he

theorem pendingAt_of_allPending (c : recordCache) (k : String) (h : allPending c) :
    pendingAt c k := by
  intro r hr
  exact h (k, r) (mapGet_mem _ _ _ hr)

/-- C14: in every state reached from the empty cache by `Put`, `SubscribeOnce`
and sweep operations, no record in the cache map has `finished = true`. -/
theorem no_completed_record_persists (ops : List (Time × Op)) :
    (∀ e ∈ (run NewRecordCache ops).1.cache, e.2.finished = false) ∧
    (∀ k r, mapGet (run NewRecordCache ops).1.cache k = some r → r.finished = false) := by
  have h := run_allPending ops NewRecordCache allPending_NewRecordCache
  exact ⟨h, fun k r hr => pendingAt_of_allPending _ k h r hr⟩

/-- C13: in every state reached from the empty cache by `Put`, `SubscribeOnce`
and sweep operations, the record a call `doPut(d, ch, sn, sum, fs)` returns has
`finished = true` exactly when the length of its list, the list stored so far
followed by `fs`, equals the `sum` of this call. -/
theorem completion_flag_follows_call (ops : List (Time × Op)) (now : Time) (d ch : String)
    (sn sum : Int) (fs : List Record) :
    ((doPut now (run NewRecordCache ops).1 d ch sn sum fs).2.2.finished = true ↔
      ((doPut now (run NewRecordCache ops).1 d ch sn sum fs).2.2.list.length : Int) = sum) ∧
    (doPut now (run NewRecordCache ops).1 d ch sn sum fs).2.2.list
      = curList (run NewRecordCache ops).1 (recordKey d ch sn) ++ fs := by
  have hp := pendingAt_of_allPending _ (recordKey d ch sn)
    (run_allPending ops NewRecordCache allPending_NewRecordCache)
  have hl := doPut_list now (run NewRecordCache ops).1 d ch sn sum fs
  refine ⟨?_, hl⟩
  rw [hl]
  constructor
  · intro hf
    by_contra hne
    rw [doPut_finished_of_ne now _ d ch sn sum fs hp hne] at hf
    cases hf
  · intro he
    exact doPut_finished_of_eq now _ d ch sn sum fs he

/-! ## Creation time and overshoot -/

/-- A `Put` on a key that has a record and does not complete it stores the
record with the fragments appended and every other field as it was. -/
theorem Put_existing_pending (now : Time) (c : recordCache) (d ch : String) (sn sum : Int)
    (fs : List Record) (r : records) (hr : mapGet c.cache (recordKey d ch sn) = some r)
    (hnc : (doPut now c d ch sn sum fs).2.2.finished = false) :
    (doPut now c d ch sn sum fs).2.2 = { r with list := r.list ++ fs } ∧
    mapGet (Put now c d ch sn sum fs).1.cache (recordKey d ch sn)
      = some { r with list := r.list ++ fs } ∧
    (Put now c d ch sn sum fs).2 = [] ∧
    (Put now c d ch sn sum fs).1.subscribers = c.subscribers ∧
    (Put now c d ch sn sum fs).1.expire = c.expire := by
  have hd := doPut_of_some now c d ch sn sum fs r hr
  have hrec : (doPut now c d ch sn sum fs).2.2 = { r with list := r.list ++ fs } := by
    by_cases hl : ((r.list ++ fs).length : Int) = sum
    · rw [if_pos hl] at hd
      rw [hd] at hnc
      cases hnc
    · rw [if_neg hl] at hd
      exact hd
  have hc : (doPut now c d ch sn sum fs).1.cache
      = mapSet c.cache (recordKey d ch sn) (doPut now c d ch sn sum fs).2.2 := rfl
  rw [Put_not_finished now c d ch sn sum fs hnc]
  refine ⟨hrec, ?_, rfl, rfl, rfl⟩
  simp only [hc, mapGet_mapSet_self, hrec]

/-- The record a `Put` leaves under its own key is not marked finished. -/
theorem Put_key_unfinished (now : Time) (c : recordCache) (d ch : String) (sn sum : Int)
    (fs : List Record) (r : records)
    (hr : mapGet (Put now c d ch sn sum fs).1.cache (recordKey d ch sn) = some r) :
    r.finished = false := by
  have hc : (doPut now c d ch sn sum fs).1.cache
      = mapSet c.cache (recordKey d ch sn) (doPut now c d ch sn sum fs).2.2 := rfl
  cases hf : (doPut now c d ch sn sum fs).2.2.finished with
  | false =>
    rw [Put_not_finished now c d ch sn sum fs hf] at hr
    simp only [hc, mapGet_mapSet_self, Option.some.injEq] at hr
    rw [← hr]
    exact hf
  | true =>
    rw [Put_finished now c d ch sn sum fs hf] at hr
    have : mapGet (notify (doPut now c d ch sn sum fs).1 (recordKey d ch sn)
        (doPut now c d ch sn sum fs).2.2).1.cache (recordKey d ch sn) = none :=
      mapGet_mapDelete_self _ _
    rw [this] at hr
    cases hr

/-- C17: a `Put` on a key that has a record `r` and does not complete it stores
the record with the creation time of `r` (only the list grows).  So a sweep at
a time `now` with `since now r.time > expire`, however late that `Put` came,
leaves no record for the key; it makes no call for the key unless the waiter of
the key has timed out. -/
theorem creation_time_never_refreshed (now1 : Time) (c : recordCache) (d ch : String)
    (sn sum : Int) (fs : List Record) (r : records)
    (hr : mapGet c.cache (recordKey d ch sn) = some r)
    (hnc : (doPut now1 c d ch sn sum fs).2.2.finished = false) :
    mapGet (Put now1 c d ch sn sum fs).1.cache (recordKey d ch sn)
      = some { time := r.time, sum := r.sum, finished := r.finished, list := r.list ++ fs } ∧
    ∀ (now : Time) (ord1 ord2 : List String), since now r.time > c.expire →
      mapGet (watchTimeoutTick now ord1 ord2 (Put now1 c d ch sn sum fs).1).1.cache
        (recordKey d ch sn) = none ∧
      (timedOut now (Put now1 c d ch sn sum fs).1 (recordKey d ch sn) = none →
        callsFor (recordKey d ch sn)
          (watchTimeoutTick now ord1 ord2 (Put now1 c d ch sn sum fs).1).2 = []) := by
  obtain ⟨_, h2, _, _, h5⟩ := Put_existing_pending now1 c d ch sn sum fs r hr hnc
  refine ⟨h2, ?_⟩
  intro now ord1 ord2 hexp
  obtain ⟨_, t2, _, t4⟩ := watchTimeoutTick_key now ord1 ord2 (Put now1 c d ch sn sum fs).1
    (recordKey d ch sn)
  have hx : expired now (Put now1 c d ch sn sum fs).1 (recordKey d ch sn) = true := by
    rw [expired_of_record now _ _ _ h2, h5]
    simpa using hexp
  refine ⟨?_, ?_⟩
  · rw [t4, hx]
    simp
  · intro hto
    rw [t2, hto]
    rfl

/-- Witness for C17: a record created at time 0, a fragment appended at
fifty-nine seconds, a sweep at sixty-one seconds. -/
theorem creation_time_never_refreshed_witness :
    mapGet (Put (59 * second) ⟨60 * second, [("d-c-1", ⟨0, 3, false, [1]⟩)], []⟩
        "d" "c" 1 3 [2]).1.cache (recordKey "d" "c" 1)
      = some { time := (⟨0, 3, false, [1]⟩ : records).time,
               sum := (⟨0, 3, false, [1]⟩ : records).sum,
               finished := (⟨0, 3, false, [1]⟩ : records).finished,
               list := (⟨0, 3, false, [1]⟩ : records).list ++ [2] } ∧
    ∀ (now : Time) (ord1 ord2 : List String),
      since now (⟨0, 3, false, [1]⟩ : records).time
        > (⟨60 * second, [("d-c-1", ⟨0, 3, false, [1]⟩)], []⟩ : recordCache).expire →
      mapGet (watchTimeoutTick now ord1 ord2
        (Put (59 * second) ⟨60 * second, [("d-c-1", ⟨0, 3, false, [1]⟩)], []⟩
          "d" "c" 1 3 [2]).1).1.cache (recordKey "d" "c" 1) = none ∧
      (timedOut now (Put (59 * second) ⟨60 * second, [("d-c-1", ⟨0, 3, false, [1]⟩)], []⟩
          "d" "c" 1 3 [2]).1 (recordKey "d" "c" 1) = none →
        callsFor (recordKey "d" "c" 1) (watchTimeoutTick now ord1 ord2
          (Put (59 * second) ⟨60 * second, [("d-c-1", ⟨0, 3, false, [1]⟩)], []⟩
            "d" "c" 1 3 [2]).1).2 = []) :=
  creation_time_never_refreshed (59 * second)
    ⟨60 * second, [("d-c-1", ⟨0, 3, false, [1]⟩)], []⟩ "d" "c" 1 3 [2] ⟨0, 3, false, [1]⟩
    (by decide) (by decide)

/-- One operation that is not a sweep, and on the key supplies only the total
`N`, keeps a record of the key that already holds more than `N` items: the
record stays, unfinished, with a list that extends the old one, and no call is
made for the key. -/
theorem step_keeps_overshoot (c : recordCache) (now : Time) (op : Op) (k : String) (N : Int)
    (r : records) (hr : mapGet c.cache k = some r) (hfin : r.finished = false)
    (hlen : N < (r.list.length : Int)) (hop : keepsOvershoot k N op = true) :
    callsFor k (step c now op).2 = [] ∧
    ∃ r', mapGet (step c now op).1.cache k = some r' ∧ r'.finished = false ∧
      r.list <+: r'.list := by
  cases op with
  | tick ord1 ord2 => simp [keepsOvershoot] at hop
  | subscribeOnce d ch sn sub =>
    exact ⟨rfl, r, hr, hfin, List.prefix_refl _⟩
  | put d ch sn sum fs =>
    simp only [keepsOvershoot, decide_eq_true_eq] at hop
    by_cases hk : k = recordKey d ch sn
    · subst hk
      have hsum : sum = N := by
        rcases hop with h | h
        · exact absurd rfl h
        · exact h
      have hne : ((r.list ++ fs).length : Int) ≠ sum := by
        rw [hsum, List.length_append]
        push_cast
        omega
      have hd := doPut_of_some now c d ch sn sum fs r hr
      rw [if_neg hne] at hd
      have hnc : (doPut now c d ch sn sum fs).2.2.finished = false := by
        rw [hd]; exact hfin
      obtain ⟨_, h2, h3, _, _⟩ := Put_existing_pending now c d ch sn sum fs r hr hnc
      refine ⟨?_, _, h2, hfin, List.prefix_append _ _⟩
      simp only [step, h3]
      rfl
    · obtain ⟨h1, _, h3, _⟩ := Put_other_key now c d ch sn sum fs k hk
      exact ⟨h3, r, h1.trans hr, hfin, List.prefix_refl _⟩

theorem run_keeps_overshoot (ops : List (Time × Op)) (c : recordCache) (k : String) (N : Int)
    (r : records) (hr : mapGet c.cache k = some r) (hfin : r.finished = false)
    (hlen : N < (r.list.length : Int))
    (hops : ∀ x ∈ ops, keepsOvershoot k N x.2 = true) :
    callsFor k (run c ops).2 = [] ∧
    ∃ r', mapGet (run c ops).1.cache k = some r' ∧ r'.finished = false ∧
      r.list <+: r'.list := by
  induction ops generalizing c r with
  | nil => exact ⟨rfl, r, hr, hfin, List.prefix_refl _⟩
  | cons x ops ih =>
    obtain ⟨now, op⟩ := x
    have hrun : run c ((now, op) :: ops)
        = ((run (step c now op).1 ops).1, (step c now op).2 ++ (run (step c now op).1 ops).2) :=
      rfl
    obtain ⟨s1, r1, s2, s3, s4⟩ := step_keeps_overshoot c now op k N r hr hfin hlen
      (hops (now, op) (List.mem_cons_self _ _))
    have hlen1 : N < (r1.list.length : Int) := by
      have := s4.length_le
      omega
    obtain ⟨i1, r2, i2, i3, i4⟩ := ih (step c now op).1 r1 s2 s3 hlen1
      (fun x hx => hops x (List.mem_cons_of_mem _ hx))
    rw [hrun]
    refine ⟨?_, r2, i2, i3, s4.trans i4⟩
    simp only [callsFor_append, s1, i1, List.append_nil]

/-- C19 as stated fails.  After `Put(total 1, [10, 11])` the record of the key
holds two items, more than `N = 1`.  A later `Put(total 3, [12])` brings the
count to its own total: it returns `finished = true` and `notify` removes the
record with no sweep.  The next `Put(total 1, [13])` then starts a new record
and returns `finished = true`. -/
theorem overshoot_as_stated_fails :
    mapGet (Put 0 NewRecordCache "d" "c" 1 1 [10, 11]).1.cache (recordKey "d" "c" 1)
      = some ⟨0, 1, false, [10, 11]⟩ ∧
    (1 : Int) < (((⟨0, 1, false, [10, 11]⟩ : records).list.length : Nat) : Int) ∧
    (doPut 1 (Put 0 NewRecordCache "d" "c" 1 1 [10, 11]).1 "d" "c" 1 3 [12]).2.2
      = ⟨0, 1, true, [10, 11, 12]⟩ ∧
    mapGet (Put 1 (Put 0 NewRecordCache "d" "c" 1 1 [10, 11]).1 "d" "c" 1 3 [12]).1.cache
      (recordKey "d" "c" 1) = none ∧
    (doPut 2 (Put 1 (Put 0 NewRecordCache "d" "c" 1 1 [10, 11]).1 "d" "c" 1 3 [12]).1
      "d" "c" 1 1 [13]).2.2 = ⟨2, 1, true, [13]⟩ := by
  decide

/-- C19, amended: if after some `Put` the record of the key holds more than `N`
items (which is the case for every record when `N` is negative), then after
any later operations other than a sweep, in which every `Put` for the key
supplies the expected total `N`, the record is still in the cache, unfinished,
with a list that extends the old one, and no call was made for the key; a
further `Put` for the key with total `N` returns `finished = false`, calls
nothing and returns a list at least as long. -/
theorem overshoot_never_completes (now0 : Time) (c0 : recordCache) (d ch : String)
    (sn sum0 : Int) (fs0 : List Record) (N : Int) (r : records) (ops : List (Time × Op))
    (hr : mapGet (Put now0 c0 d ch sn sum0 fs0).1.cache (recordKey d ch sn) = some r)
    (hlen : N < (r.list.length : Int))
    (hops : ∀ x ∈ ops, keepsOvershoot (recordKey d ch sn) N x.2 = true) :
    callsFor (recordKey d ch sn) (run (Put now0 c0 d ch sn sum0 fs0).1 ops).2 = [] ∧
    ∃ r', mapGet (run (Put now0 c0 d ch sn sum0 fs0).1 ops).1.cache (recordKey d ch sn)
        = some r' ∧
      r'.finished = false ∧ r.list <+: r'.list ∧
      ∀ (now : Time) (fs : List Record),
        (doPut now (run (Put now0 c0 d ch sn sum0 fs0).1 ops).1 d ch sn N fs).2.2.finished
          = false ∧
        (Put now (run (Put now0 c0 d ch sn sum0 fs0).1 ops).1 d ch sn N fs).2 = [] ∧
        r'.list.length
          ≤ (doPut now (run (Put now0 c0 d ch sn sum0 fs0).1 ops).1 d ch sn N fs).2.2.list.length
        := by
  have hfin := Put_key_unfinished now0 c0 d ch sn sum0 fs0 r hr
  obtain ⟨h1, r', h2, h3, h4⟩ := run_keeps_overshoot ops _ (recordKey d ch sn) N r hr hfin hlen hops
  refine ⟨h1, r', h2, h3, h4, ?_⟩
  intro now fs
  have hlen' : N < (r'.list.length : Int) := by
    have := h4.length_le
    omega
  have hne : ((r'.list ++ fs).length : Int) ≠ N := by
    rw [List.length_append]
    push_cast
    omega
  have hd := doPut_of_some now _ d ch sn N fs r' h2
  rw [if_neg hne] at hd
  have hnc : (doPut now (run (Put now0 c0 d ch sn sum0 fs0).1 ops).1 d ch sn N fs).2.2.finished
      = false := by
    rw [hd]; exact h3
  refine ⟨hnc, ?_, ?_⟩
  · rw [Put_not_finished now _ d ch sn N fs hnc]
  · rw [hd]
    simp

/-- Witness for C19, amended: total 1 and two fragments in the first `Put`, then a
`SubscribeOnce` and another `Put` with total 1. -/
theorem overshoot_never_completes_witness :
    callsFor (recordKey "d" "c" 1) (run (Put 0 NewRecordCache "d" "c" 1 1 [10, 11]).1
      [((1 : Time), Op.subscribeOnce "d" "c" 1 ⟨7, second, 1⟩),
       (2, Op.put "d" "c" 1 1 [12])]).2 = [] ∧
    ∃ r', mapGet (run (Put 0 NewRecordCache "d" "c" 1 1 [10, 11]).1
        [((1 : Time), Op.subscribeOnce "d" "c" 1 ⟨7, second, 1⟩),
         (2, Op.put "d" "c" 1 1 [12])]).1.cache (recordKey "d" "c" 1) = some r' ∧
      r'.finished = false ∧ (⟨0, 1, false, [10, 11]⟩ : records).list <+: r'.list ∧
      ∀ (now : Time) (fs : List Record),
        (doPut now (run (Put 0 NewRecordCache "d" "c" 1 1 [10, 11]).1
          [((1 : Time), Op.subscribeOnce "d" "c" 1 ⟨7, second, 1⟩),
           (2, Op.put "d" "c" 1 1 [12])]).1 "d" "c" 1 1 fs).2.2.finished = false ∧
        (Put now (run (Put 0 NewRecordCache "d" "c" 1 1 [10, 11]).1
          [((1 : Time), Op.subscribeOnce "d" "c" 1 ⟨7, second, 1⟩),
           (2, Op.put "d" "c" 1 1 [12])]).1 "d" "c" 1 1 fs).2 = [] ∧
        r'.list.length
          ≤ (doPut now (run (Put 0 NewRecordCache "d" "c" 1 1 [10, 11]).1
            [((1 : Time), Op.subscribeOnce "d" "c" 1 ⟨7, second, 1⟩),
             (2, Op.put "d" "c" 1 1 [12])]).1 "d" "c" 1 1 fs).2.2.list.length :=
  overshoot_never_completes 0 NewRecordCache "d" "c" 1 1 [10, 11] 1 ⟨0, 1, false, [10, 11]⟩
    [((1 : Time), Op.subscribeOnce "d" "c" 1 ⟨7, second, 1⟩), (2, Op.put "d" "c" 1 1 [12])]
    (by decide) (by decide) (by decide)

/-! ## Lock discipline -/

/-- In `notify` the lookup of the waiter comes before `c.Lock()`. -/
theorem notify_reads_before_lock (c : recordCache) (key : String) :
    underLock false (notifyAccesses c key) = false := by
  simp [notifyAccesses, underLock]

/-- C12 fails on the code.  `doPut` and `SubscribeOnce` touch the maps under
the lock.  A completing `Put("d", "c", 1, 1, [10])` on the empty cache runs
`notify`, which reads the subscribers map before taking the lock; and a sweep
over a cache holding one expired record ranges over the cache map and deletes
from it without ever taking the lock. -/
theorem lock_discipline_broken :
    underLock false doPutAccesses = true ∧
    underLock false SubscribeOnceAccesses = true ∧
    PutAccesses 0 NewRecordCache "d" "c" 1 1 [10]
      = [Access.lock, Access.readCache, Access.writeCache, Access.unlock,
         Access.readSubscribers,
         Access.lock, Access.writeSubscribers, Access.writeCache, Access.unlock] ∧
    underLock false (PutAccesses 0 NewRecordCache "d" "c" 1 1 [10]) = false ∧
    watchTimeoutTickAccesses (61 * second) [] []
        ⟨60 * second, [("d-c-1", ⟨0, 3, false, [1]⟩)], []⟩
      = [Access.readCache, Access.writeCache] ∧
    underLock false (watchTimeoutTickAccesses (61 * second) [] []
        ⟨60 * second, [("d-c-1", ⟨0, 3, false, [1]⟩)], []⟩) = false := by
  decide

end Gb28181
